import Mathlib

/-!
# tsh: the job table and the job-control protocol of `shlab-handout/tsh.c`

A shallow embedding of the tiny shell.  The globals `jobs`, `nextjid` and
`verbose` are threaded explicitly as a `Shell` value.  What the operating
system decides (the value returned by `fork`, the status stored by `waitpid`,
the children a `SIGCHLD` handler finds to reap) is an explicit argument of the
function that asks for it.  What the shell does to the outside world (text
written to stdout, signals sent with `kill`) is returned as a list of `Event`s.

Conventions.
* `pid_t` and `int` are `Int`.  Job ids grow by one per `addjob`, so they stay
  far below `2^31` in every run of practical length; the one place where a
  32-bit conversion is visible, `atoi`, is modelled with its wrap-around.
* A `String` is the content of a NUL-terminated `char` array.
* The job table is a `List job_t`; `initjobs` builds it with `MAXJOBS`
  entries and every operation keeps that length.
* System calls wrapped by `Sigprocmask`, `Kill`, `Waitpid` are taken to
  succeed (their failure path prints and calls `exit(1)`).
* A call that does not return to its caller yields a `Halt`.
-/

namespace Tsh

/-! ## Manifest constants -/

/-- Max line size. -/
abbrev MAXLINE : Nat := 1024
/-- Max args on a command line. -/
abbrev MAXARGS : Nat := 128
/-- Max jobs at any point in time. -/
abbrev MAXJOBS : Nat := 16

/-- Job state: undefined. -/
abbrev UNDEF : Int := 0
/-- Job state: running in foreground. -/
abbrev FG : Int := 1
/-- Job state: running in background. -/
abbrev BG : Int := 2
/-- Job state: stopped. -/
abbrev ST : Int := 3

/-! ## Data model -/

/-- The job struct. -/
structure job_t where
  pid : Int
  jid : Int
  state : Int
  cmdline : String
  deriving DecidableEq, Repr

/-- The global variables of the shell that the job-control code reads and writes. -/
structure Shell where
  jobs : List job_t
  nextjid : Int
  verbose : Bool
  deriving DecidableEq, Repr

/-- Signals the shell sends. -/
inductive Sig where
  | SIGINT
  | SIGTSTP
  | SIGCONT
  deriving DecidableEq, Repr

/-- An effect of the shell that is visible outside the process. -/
inductive Event where
  | print (text : String)
  | kill (target : Int) (sig : Sig)
  deriving DecidableEq, Repr

/-- Ways in which a call does not return to its caller. -/
inductive Halt where
  | exit (code : Int)
  | nullDeref
  | bufferOverrun
  | child
  deriving DecidableEq, Repr

deriving instance DecidableEq for Except

/-- The status word filled in by `waitpid`, as decoded by the `WIF...` macros of
`<sys/wait.h>`: `WIFEXITED`, `WIFSIGNALED` with `WTERMSIG`, `WIFSTOPPED` with
`WSTOPSIG`, or a word for which none of the three holds. -/
inductive WaitStatus where
  | exited (code : Int)
  | signaled (sig : Int)
  | stopped (sig : Int)
  | other
  deriving DecidableEq, Repr

/-! ## Helper routines that manipulate the job list -/

/-- The loop `for (i = 0; i < MAXJOBS; i++) if (p(jobs[i])) return i;`: the lowest
index whose entry satisfies `p`. -/
def firstSlot (p : job_t → Bool) : List job_t → Option Nat
  | [] => none
  | j :: js => if p j then some 0 else (firstSlot p js).map (· + 1)

/-- Clear the entries in a job struct: the value every field of `*job` is set to. -/
def clearjob : job_t :=
  { pid := 0, jid := 0, state := UNDEF, cmdline := "" }

/-- Initialise the job list: `MAXJOBS` cleared entries. -/
def initjobs : List job_t :=
  List.replicate MAXJOBS clearjob

/-- The shell right after `main` called `initjobs`, with `nextjid = 1`. -/
def initShell (verbose : Bool) : Shell :=
  { jobs := initjobs, nextjid := 1, verbose := verbose }

/-- Largest allocated job id. -/
def maxjid (jobs : List job_t) : Int :=
  jobs.foldl (fun max j => if j.jid > max then j.jid else max) 0

/-- Add a job to the job list.  Returns the new globals, the C return value and
what was printed. -/
def addjob (s : Shell) (pid : Int) (state : Int) (cmdline : String) :
    Shell × Int × List Event :=
  if pid < 1 then (s, 0, [])
  else
    match firstSlot (fun j => decide (j.pid = 0)) s.jobs with
    | some i =>
      let job : job_t := { pid := pid, jid := s.nextjid, state := state, cmdline := cmdline }
      let next : Int := if s.nextjid + 1 > (MAXJOBS : Int) then 1 else s.nextjid + 1
      ({ s with jobs := s.jobs.set i job, nextjid := next }, 1,
        if s.verbose then
          [Event.print ("Added job [" ++ toString job.jid ++ "] " ++ toString job.pid ++ " "
            ++ job.cmdline ++ "\n")]
        else [])
    | none => (s, 0, [Event.print "Tried to create too many jobs\n"])

/-- Delete a job whose PID=pid from the job list. -/
def deletejob (s : Shell) (pid : Int) : Shell × Int :=
  if pid < 1 then (s, 0)
  else
    match firstSlot (fun j => decide (j.pid = pid)) s.jobs with
    | some i =>
      let jobs := s.jobs.set i clearjob
      ({ s with jobs := jobs, nextjid := maxjid jobs + 1 }, 1)
    | none => (s, 0)

/-- Return PID of current foreground job, 0 if no such job. -/
def fgpid : List job_t → Int
  | [] => 0
  | j :: js => if j.state = FG then j.pid else fgpid js

/-- Find a job (by PID) on the job list; the result is the index of the entry. -/
def getjobpid (jobs : List job_t) (pid : Int) : Option Nat :=
  if pid < 1 then none else firstSlot (fun j => decide (j.pid = pid)) jobs

/-- Find a job (by JID) on the job list; the result is the index of the entry. -/
def getjobjid (jobs : List job_t) (jid : Int) : Option Nat :=
  if jid < 1 then none else firstSlot (fun j => decide (j.jid = jid)) jobs

/-- The scan of `pid2jid` over the table. -/
def pid2jidScan (pid : Int) : List job_t → Int
  | [] => 0
  | j :: js => if j.pid = pid then j.jid else pid2jidScan pid js

/-- Map process ID to job ID. -/
def pid2jid (jobs : List job_t) (pid : Int) : Int :=
  if pid < 1 then 0 else pid2jidScan pid jobs

/-- What `listjobs` writes for the entry at index `i`, when that entry is in use. -/
def listjobsEntry (i : Nat) (j : job_t) : String :=
  "[" ++ toString j.jid ++ "] (" ++ toString j.pid ++ ") "
    ++ (if j.state = BG then "Running "
        else if j.state = FG then "Foreground "
        else if j.state = ST then "Stopped "
        else "listjobs: Internal error: job[" ++ toString i ++ "].state=" ++ toString j.state ++ " ")
    ++ j.cmdline

/-- The loop of `listjobs`, from index `i` on. -/
def listjobsFrom (i : Nat) : List job_t → List String
  | [] => []
  | j :: js =>
    if j.pid ≠ 0 then listjobsEntry i j :: listjobsFrom (i + 1) js
    else listjobsFrom (i + 1) js

/-- Print the job list: one text per entry in use, in table order. -/
def listjobs (jobs : List job_t) : List String :=
  listjobsFrom 0 jobs

/-! ## Command-line parsing -/

/-- The single-quote character. -/
def quoteChar : Char := Char.ofNat 39

/-- The loop `while (*buf && (*buf == ' ')) buf++;`. -/
def skipSpaces : List Char → List Char
  | [] => []
  | c :: cs => if c = ' ' then skipSpaces cs else c :: cs

/-- The call `strchr(buf, c)` for a character `c` other than NUL: the text before
the first `c` and the text after it, or `none` when `buf` has no `c`. -/
def strchr (c : Char) : List Char → Option (List Char × List Char)
  | [] => none
  | x :: xs =>
    if x = c then some ([], xs)
    else
      match strchr c xs with
      | some (front, back) => some (x :: front, back)
      | none => none

/-- The search for the end of the argument that starts at `buf`: up to the
closing quote when `buf` starts with a quote, up to the next space otherwise. -/
def findDelim (buf : List Char) : Option (List Char × List Char) :=
  match buf with
  | [] => none
  | c :: rest => if c = quoteChar then strchr quoteChar rest else strchr ' ' (c :: rest)

/-- The loop `while (delim) { argv[argc++] = buf; ... }` of `parseline`; `buf` is
past its leading spaces.  Every round consumes the delimiter, so `buf.length`
rounds of fuel are enough (`parseArgs_fuel`). -/
def parseArgs : Nat → List Char → List (List Char)
  | 0, _ => []
  | fuel + 1, buf =>
    match findDelim buf with
    | some (arg, rest) => arg :: parseArgs fuel (skipSpaces rest)
    | none => []

/-- The arguments the loop of `parseline` stores into `argv`, before the last one
is checked for `&`: the line is copied, its last character (the newline) is
replaced by a space and leading spaces are skipped. -/
def lineArgs (cmdline : String) : List (List Char) :=
  let buf := skipSpaces (cmdline.data.dropLast ++ [' '])
  parseArgs buf.length buf

/-- Parse the command line and build the argv array.  The result is the argv
array up to its NULL entry and the return value (true for a BG job).  The copy
into the static `array[MAXLINE]` and the stores into the caller's
`argv[MAXARGS]` stay inside those arrays only for a non-empty line shorter
than `MAXLINE` with fewer than `MAXARGS` arguments. -/
def parseline (cmdline : String) : Except Halt (List String × Bool) :=
  if cmdline.data = [] ∨ MAXLINE ≤ cmdline.data.length then Except.error Halt.bufferOverrun
  else
    let args := lineArgs cmdline
    if MAXARGS ≤ args.length then Except.error Halt.bufferOverrun
    else
      match args.getLast? with
      | none => Except.ok ([], true)
      | some last =>
        if last.head? = some '&' then Except.ok ((args.dropLast).map String.mk, true)
        else Except.ok (args.map String.mk, false)

/-- True when every character of `str` is a decimal digit (also for the empty
string). -/
def isnumstr (str : List Char) : Bool :=
  str.all (fun c => decide ('0' ≤ c ∧ c ≤ '9'))

/-- The value of a string of decimal digits. -/
def decimalValue (str : List Char) : Nat :=
  str.foldl (fun acc c => 10 * acc + (c.toNat - 48)) 0

/-- Conversion of a value to the 32-bit two's complement `int` with the same low
32 bits. -/
def toInt32 (v : Int) : Int :=
  (v + 2 ^ 31) % 2 ^ 32 - 2 ^ 31

/-- The C library's `atoi` on a string of decimal digits, which is all the shell
passes to it.  On the Linux systems the shell is written for it is
`(int) strtol(str, NULL, 10)`: `strtol` saturates at `LONG_MAX = 2^63 - 1` and
the conversion to `int` keeps the low 32 bits.  For a numeral below `2^31` the
result is its value (`atoi_of_lt`). -/
def atoi (str : List Char) : Int :=
  toInt32 (min (decimalValue str : Int) (2 ^ 63 - 1))

/-! ## Job control -/

/-- Interpret the status of process `pid`.  Returns the table, the C return value
(the pid of the process terminated, otherwise 0) and what was printed. -/
def status_handling (status : WaitStatus) (pid : Int) (jobs : List job_t) :
    Except Halt (List job_t × Int × List Event) :=
  let jobp := getjobpid jobs pid
  match status with
  | WaitStatus.signaled sig =>
    Except.ok (jobs, pid, [Event.print ("Job [" ++ toString (pid2jid jobs pid) ++ "] ("
      ++ toString pid ++ ") terminated by signal " ++ toString sig ++ "\n")])
  | WaitStatus.stopped sig =>
    match jobp with
    | some i =>
      Except.ok (jobs.modify (fun j => { j with state := ST }) i, 0,
        [Event.print ("Job [" ++ toString (pid2jid jobs pid) ++ "] ("
          ++ toString pid ++ ") stopped by signal " ++ toString sig ++ "\n")])
    | none => Except.error Halt.nullDeref
  | WaitStatus.exited _ => Except.ok (jobs, pid, [])
  | WaitStatus.other => Except.ok (jobs, 0, [])

/-- Block until process pid is no longer the foreground process; `status` is what
`Waitpid(pid, &status, WUNTRACED)` stored. -/
def waitfg (s : Shell) (pid : Int) (status : WaitStatus) : Except Halt (Shell × List Event) :=
  match status_handling status pid s.jobs with
  | Except.error h => Except.error h
  | Except.ok (jobs, ret, out) =>
    if ret ≠ 0 then Except.ok ((deletejob { s with jobs := jobs } pid).1, out)
    else Except.ok ({ s with jobs := jobs }, out)

/-- Resolve the argument of `bg`/`fg` to a job; returns the index of the job
(`none` for NULL) and the error message printed. -/
def bg_fg_errorhandling (jobs : List job_t) (str : Option String) (bg : Bool) :
    Option Nat × List Event :=
  let ss := if bg then "bg" else "fg"
  match str with
  | none => (none, [Event.print (ss ++ " argument must be a PID or %jobid\n")])
  | some str =>
    if str.data.head? ≠ some '%' then
      if isnumstr str.data then
        let pid := atoi str.data
        match getjobpid jobs pid with
        | some i => (some i, [])
        | none => (none, [Event.print ("(" ++ toString pid ++ "): No such process\n")])
      else (none, [Event.print (ss ++ ": argument must be a PID or %jobid\n")])
    else
      if isnumstr str.data.tail then
        match getjobjid jobs (atoi str.data.tail) with
        | some i => (some i, [])
        | none => (none, [Event.print (str ++ ": No such job\n")])
      else (none, [Event.print (ss ++ ": argument must be a PID or %jobid\n")])

/-- Execute the builtin bg and fg commands; `status` is what the blocking wait of
`waitfg` stores when the job is resumed in the foreground.  `jobp` is the
index returned by `bg_fg_errorhandling`; it comes from a search of the table,
so the entry it points to exists. -/
def do_bgfg (s : Shell) (argv : List String) (status : WaitStatus) :
    Except Halt (Shell × List Event) :=
  if argv.head? ≠ some "fg" ∧ argv.head? ≠ some "bg" then Except.ok (s, [])
  else
    let bg : Bool := decide (argv.head? ≠ some "fg")
    match bg_fg_errorhandling s.jobs argv[1]? bg with
    | (none, out) => Except.ok (s, out)
    | (some i, out) =>
      match s.jobs[i]? with
      | none => Except.error Halt.nullDeref
      | some job =>
        let sent := out ++ [Event.kill (-job.pid) Sig.SIGCONT]
        if bg then
          Except.ok ({ s with jobs := s.jobs.modify (fun j => { j with state := BG }) i },
            sent ++ [Event.print ("[" ++ toString job.jid ++ "] (" ++ toString job.pid ++ ") "
              ++ job.cmdline)])
        else
          match waitfg { s with jobs := s.jobs.modify (fun j => { j with state := FG }) i }
              job.pid status with
          | Except.error h => Except.error h
          | Except.ok (s1, out1) => Except.ok (s1, sent ++ out1)

/-- If the user has typed a built-in command then execute it immediately.  The
result is `none` for "not a builtin command" (return value 0). -/
def builtin_cmd (s : Shell) (argv : List String) (status : WaitStatus) :
    Except Halt (Option (Shell × List Event)) :=
  if argv.head? = some "quit" then Except.error (Halt.exit 0)
  else if argv.head? = some "jobs" then
    Except.ok (some (s, (listjobs s.jobs).map Event.print))
  else if argv.head? = some "fg" ∨ argv.head? = some "bg" then
    match do_bgfg s argv status with
    | Except.error h => Except.error h
    | Except.ok r => Except.ok (some r)
  else Except.ok none

/-- Evaluate the command line that the user has just typed in.  `forked` is the
value returned by `fork` should the line start a job, and `status` what a
blocking wait stores should the line wait for a foreground job. -/
def eval (s : Shell) (cmdline : String) (forked : Int) (status : WaitStatus) :
    Except Halt (Shell × List Event) :=
  match parseline cmdline with
  | Except.error h => Except.error h
  | Except.ok (argv, bg) =>
    if argv = [] then Except.ok (s, [])
    else
      match builtin_cmd s argv status with
      | Except.error h => Except.error h
      | Except.ok (some r) => Except.ok r
      | Except.ok none =>
        if forked < 0 then Except.error (Halt.exit 1)
        else if forked = 0 then Except.error Halt.child
        else if ¬ bg then
          let (s1, _, out1) := addjob s forked FG cmdline
          match waitfg s1 forked status with
          | Except.error h => Except.error h
          | Except.ok (s2, out2) => Except.ok (s2, out1 ++ out2)
        else
          let (s1, _, out1) := addjob s forked BG cmdline
          Except.ok (s1, out1 ++ [Event.print ("[" ++ toString (pid2jid s1.jobs forked) ++ "] ("
            ++ toString forked ++ ") " ++ cmdline)])

/-! ## Signal handlers -/

/-- The loop `while ((pid = waitpid(-1, NULL, WNOHANG)) > 0) deletejob(jobs, pid);`.
`reaped` lists, in order, the children `waitpid` returns together with the
status the kernel holds for each; the handler passes NULL for the status, so
it never sees it.  The loop ends at the first result that is not positive or
when no child is left. -/
def reapLoop (s : Shell) : List (Int × WaitStatus) → Shell
  | [] => s
  | (pid, _) :: rest => if pid > 0 then reapLoop (deletejob s pid).1 rest else s

/-- The SIGCHLD handler.  `failed` tells that the last `waitpid` returned a
negative value with `errno` other than `ECHILD`. -/
def sigchld_handler (s : Shell) (reaped : List (Int × WaitStatus)) (failed : Bool) :
    Shell × List Event :=
  (reapLoop s reaped, if failed then [Event.print "waitpid error in handler"] else [])

/-- The SIGINT handler: catch ctrl-c and send it along to the foreground job. -/
def sigint_handler (s : Shell) : Shell × List Event :=
  let pid := fgpid s.jobs
  (s, [Event.kill (-pid) Sig.SIGINT])

/-- The SIGTSTP handler: catch ctrl-z and suspend the foreground job. -/
def sigtstp_handler (s : Shell) : Shell × List Event :=
  let pid := fgpid s.jobs
  (s, [Event.kill (-pid) Sig.SIGTSTP])

/-! ## Runs of the job-table mutators -/

/-- A call of one of the two mutators of the job table. -/
inductive JobOp where
  | add (pid : Int) (state : Int) (cmdline : String)
  | del (pid : Int)
  deriving DecidableEq, Repr

/-- The globals after one call. -/
def applyOp (s : Shell) : JobOp → Shell
  | JobOp.add pid state cmdline => (addjob s pid state cmdline).1
  | JobOp.del pid => (deletejob s pid).1

/-- The globals after a sequence of calls. -/
def runOps : Shell → List JobOp → Shell
  | s, [] => s
  | s, op :: ops => runOps (applyOp s op) ops

/-- The job ids of the entries in use (`pid != 0`), in table order. -/
def presentJids (jobs : List job_t) : List Int :=
  (jobs.filter (fun j => decide (j.pid ≠ 0))).map (fun j => j.jid)

/-- The call stores a job under a job id that is in use: `addjob` succeeds while
the counter equals the job id of an entry with `pid != 0`. -/
def reusesId (s : Shell) : JobOp → Bool
  | JobOp.add pid state cmdline =>
    decide ((addjob s pid state cmdline).2.1 = 1 ∧ s.nextjid ∈ presentJids s.jobs)
  | JobOp.del _ => false

/-- The initialised shell after `addjob(jobs, 100, FG, "sleep 1\n")`. -/
def oneJobShell : Shell :=
  (addjob (initShell false) 100 FG "sleep 1\n").1

/-- The initialised shell after `addjob(jobs, 100, BG, "sleep 9 &\n")`. -/
def bgJobShell : Shell :=
  (addjob (initShell false) 100 BG "sleep 9 &\n").1

/-! ## Runs of the shell -/

/-- One step of the shell: the evaluation of a command line by `eval`, with the
value `fork` returns and the status a blocking wait stores, or one run of the
SIGCHLD handler, with the children it reaps. -/
inductive Step where
  | command (cmdline : String) (forked : Int) (status : WaitStatus)
  | sigchld (reaped : List (Int × WaitStatus)) (failed : Bool)
  deriving DecidableEq, Repr

/-- The globals after one step, or the reason why the step does not return. -/
def applyStep (s : Shell) : Step → Except Halt Shell
  | Step.command cmdline forked status =>
    match eval s cmdline forked status with
    | Except.ok (s1, _) => Except.ok s1
    | Except.error h => Except.error h
  | Step.sigchld reaped failed => Except.ok (sigchld_handler s reaped failed).1

/-- The globals after a sequence of steps, or the reason why one of them does not
return. -/
def runSteps : Shell → List Step → Except Halt Shell
  | s, [] => Except.ok s
  | s, step :: rest =>
    match applyStep s step with
    | Except.ok s1 => runSteps s1 rest
    | Except.error h => Except.error h

/-- The operating system answers a step as assumed: `fork` returns a positive
process id that is not in the table, and a blocking wait reports exited,
killed by a signal or stopped. -/
def stepAdmissible (s : Shell) : Step → Bool
  | Step.command _ forked status =>
    decide (0 < forked) && decide (getjobpid s.jobs forked = none)
      && decide (status ≠ WaitStatus.other)
  | Step.sigchld _ _ => true

/-- Every step of the run is answered as assumed, in the state it starts from. -/
def admissibleRun : Shell → List Step → Bool
  | _, [] => true
  | s, step :: rest =>
    stepAdmissible s step &&
      (match applyStep s step with
        | Except.ok s1 => admissibleRun s1 rest
        | Except.error _ => true)

/-- The number of table entries in state `FG`. -/
def countFG (jobs : List job_t) : Nat :=
  jobs.countP (fun j => decide (j.state = FG))

/-- Well-formed table: a slot with `pid == 0` has `jid == 0`, no pid is negative,
and no two slots hold the same non-zero pid. -/
def TableOk (jobs : List job_t) : Prop :=
  (∀ j ∈ jobs, (j.pid = 0 ∧ j.jid = 0) ∨ 1 ≤ j.pid) ∧
    ∀ (a b : Nat) (ja jb : job_t), jobs[a]? = some ja → jobs[b]? = some jb →
      ja.pid ≠ 0 → ja.pid = jb.pid → a = b

/-- No entry is in state `FG`. -/
def NoFg (jobs : List job_t) : Prop :=
  ∀ j ∈ jobs, j.state ≠ FG

/-- Every entry in state `FG` has process id `p`. -/
def FgOnly (jobs : List job_t) (p : Int) : Prop :=
  ∀ j ∈ jobs, j.state = FG → j.pid = p

/-- A sample run: a background launch, a foreground launch that gets stopped, a
run of the SIGCHLD handler reaping the background job, `fg %2` on the stopped
job, which then exits, and `jobs`. -/
def sampleRun : List Step :=
  [Step.command "sleep 5 &\n" 100 (WaitStatus.exited 0),
   Step.command "sleep 9\n" 101 (WaitStatus.stopped 20),
   Step.sigchld [(100, WaitStatus.exited 0)] false,
   Step.command "fg %2\n" 102 (WaitStatus.exited 0),
   Step.command "jobs\n" 103 (WaitStatus.exited 0)]

/-- The globals after `sampleRun`. -/
def sampleRunEnd : Shell :=
  match runSteps (initShell false) sampleRun with
  | Except.ok s => s
  | Except.error _ => initShell false

/-- The initialised shell after sixteen `addjob` calls: every slot is in use. -/
def fullShell : Shell :=
  runOps (initShell false)
    [JobOp.add 1 BG "a\n", JobOp.add 2 BG "a\n", JobOp.add 3 BG "a\n", JobOp.add 4 BG "a\n",
     JobOp.add 5 BG "a\n", JobOp.add 6 BG "a\n", JobOp.add 7 BG "a\n", JobOp.add 8 BG "a\n",
     JobOp.add 9 BG "a\n", JobOp.add 10 BG "a\n", JobOp.add 11 BG "a\n", JobOp.add 12 BG "a\n",
     JobOp.add 13 BG "a\n", JobOp.add 14 BG "a\n", JobOp.add 15 BG "a\n", JobOp.add 16 BG "a\n"]

/-- A table whose first slot holds job 1, pid 101, stopped. -/
def stoppedJobShell : Shell :=
  { jobs := { pid := 101, jid := 1, state := ST, cmdline := "sleep 9\n" }
      :: List.replicate 15 clearjob,
    nextjid := 2, verbose := false }

/-! ## The selector of `fg` and `bg`, in the words of the specification -/

/-- The digits of a selector: the text after `%` for a job-id reference, the whole
text otherwise. -/
def selectorDigits (str : String) : List Char :=
  if str.data.head? = some '%' then str.data.tail else str.data

/-- The selector names a job of the table: it is `%` followed by a decimal numeral
equal to the job id of an entry in use, or a decimal numeral (not starting
with `%`) equal to the pid of an entry in use.  A missing argument names no
job. -/
def resolvable (jobs : List job_t) : Option String → Bool
  | none => false
  | some str =>
    isnumstr (selectorDigits str) && decide (selectorDigits str ≠ []) &&
      jobs.any (fun job => decide (job.pid ≠ 0) &&
        decide ((if str.data.head? = some '%' then job.jid else job.pid)
          = (decimalValue (selectorDigits str) : Int)))

/-! ## The end of a command line, in the words of the specification -/

/-- The newline character. -/
def newlineChar : Char := Char.ofNat 10

/-- The last character of a line after its final character (the newline) and the
spaces before it are trimmed. -/
def trimmedLast (cmdline : String) : Option Char :=
  (cmdline.data.dropLast.reverse.dropWhile (fun c => decide (c = ' '))).head?

/-! ## The shape of the table -/

/-- The table has `MAXJOBS` slots, each cleared or in use as a whole (`pid == 0`
exactly when `jid == 0`), and the next job id is positive. -/
def SlotsOk (s : Shell) : Prop :=
  s.jobs.length = MAXJOBS ∧ (∀ j ∈ s.jobs, (j.pid = 0 ↔ j.jid = 0)) ∧ 1 ≤ s.nextjid

/-! ## The slot search -/

theorem firstSlot_none_iff (p : job_t → Bool) (l : List job_t) :
    firstSlot p l = none ↔ ∀ j ∈ l, p j = false := by
  induction l with
  | nil => simp [firstSlot]
  | cons a l ih =>
    by_cases h : p a = true
    · simp [firstSlot, h]
    · simp [firstSlot, h, ih]

theorem firstSlot_some_iff (p : job_t → Bool) (l : List job_t) (i : Nat) :
    firstSlot p l = some i ↔
      (∃ j, l[i]? = some j ∧ p j = true) ∧ ∀ k, k < i → ∀ j, l[k]? = some j → p j = false := by
  induction l generalizing i with
  | nil => simp [firstSlot]
  | cons a l ih =>
    by_cases h : p a = true
    · simp only [firstSlot, h, if_true, Option.some.injEq]
      constructor
      · intro hi
        subst hi
        exact ⟨⟨a, by simp, h⟩, fun k hk => absurd hk (Nat.not_lt_zero k)⟩
      · rintro ⟨-, hmin⟩
        cases i with
        | zero => rfl
        | succ n =>
          have := hmin 0 (Nat.succ_pos n) a (by simp)
          simp [h] at this
    · have hf : p a = false := by simpa using h
      simp only [firstSlot, hf, Bool.false_eq_true, if_false, Option.map_eq_some']
      constructor
      · rintro ⟨n, hn, rfl⟩
        obtain ⟨hex, hmin⟩ := (ih n).1 hn
        refine ⟨by simpa using hex, ?_⟩
        intro k hk j hj
        cases k with
        | zero => simp at hj; subst hj; exact hf
        | succ m => exact hmin m (by omega) j (by simpa using hj)
      · rintro ⟨⟨j, hj, hpj⟩, hmin⟩
        cases i with
        | zero => simp at hj; subst hj; simp [hf] at hpj
        | succ n =>
          refine ⟨n, (ih n).2 ⟨⟨j, by simpa using hj, hpj⟩, ?_⟩, rfl⟩
          intro k hk j' hj'
          exact hmin (k + 1) (by omega) j' (by simpa using hj')

theorem firstSlot_lt {p : job_t → Bool} {l : List job_t} {i : Nat}
    (h : firstSlot p l = some i) : i < l.length := by
  obtain ⟨⟨j, hj, -⟩, -⟩ := (firstSlot_some_iff p l i).1 h
  exact (List.getElem?_eq_some.1 hj).1

/-! ## The contract of `addjob` -/

/-- C3: `addjob` returns 0 and leaves the table, the next-job-id counter (and the
verbose flag) unchanged exactly when `pid < 1` or no slot is empty; in every
other case it returns 1 and the new table is the old one with the
lowest-index empty slot overwritten by the entry made of `pid`, the previous
value of the counter as job id, `state` and `cmdline`. -/
theorem addjob_contract (s : Shell) (pid state : Int) (cmdline : String) :
    (((addjob s pid state cmdline).2.1 = 0 ∧ (addjob s pid state cmdline).1 = s) ↔
        (pid < 1 ∨ ∀ j ∈ s.jobs, j.pid ≠ 0)) ∧
    ((pid < 1 ∨ ∀ j ∈ s.jobs, j.pid ≠ 0) ∨
      ((addjob s pid state cmdline).2.1 = 1 ∧
        ∃ i, (∃ j, s.jobs[i]? = some j ∧ j.pid = 0) ∧
          (∀ k, k < i → ∀ j, s.jobs[k]? = some j → j.pid ≠ 0) ∧
          (addjob s pid state cmdline).1.jobs =
            s.jobs.set i { pid := pid, jid := s.nextjid, state := state, cmdline := cmdline })) := by
  by_cases hpid : pid < 1
  · simp [addjob, hpid]
  · cases hslot : firstSlot (fun j => decide (j.pid = 0)) s.jobs with
    | none =>
      have hfull : ∀ j ∈ s.jobs, j.pid ≠ 0 := by
        intro j hj
        simpa using (firstSlot_none_iff _ _).1 hslot j hj
      simp [addjob, hpid, hslot]
      exact hfull
    | some i =>
      obtain ⟨⟨j, hj, hpj⟩, hmin⟩ := (firstSlot_some_iff _ _ i).1 hslot
      have hnotfull : ¬ ∀ j ∈ s.jobs, j.pid ≠ 0 := by
        intro hall
        exact hall j (List.getElem?_mem hj) (by simpa using hpj)
      refine ⟨?_, Or.inr ⟨by simp [addjob, hpid, hslot], i, ⟨j, hj, by simpa using hpj⟩, ?_, ?_⟩⟩
      · simp [addjob, hpid, hslot, hnotfull]
      · intro k hk j' hj'
        simpa using hmin k hk j' hj'
      · simp [addjob, hpid, hslot]

/-! ## Job ids under `addjob` and `deletejob` -/

theorem foldl_maxjid_ge_init (l : List job_t) (m : Int) :
    m ≤ l.foldl (fun max j => if j.jid > max then j.jid else max) m := by
  induction l generalizing m with
  | nil => simp
  | cons a l ih =>
    simp only [List.foldl_cons]
    refine le_trans ?_ (ih _)
    split <;> omega

theorem foldl_maxjid_ge_mem (l : List job_t) (m : Int) :
    ∀ j ∈ l, j.jid ≤ l.foldl (fun max j => if j.jid > max then j.jid else max) m := by
  induction l generalizing m with
  | nil => simp
  | cons a l ih =>
    intro j hj
    simp only [List.foldl_cons]
    rcases List.mem_cons.1 hj with rfl | hj
    · refine le_trans ?_ (foldl_maxjid_ge_init l _)
      split <;> omega
    · exact ih _ j hj

theorem jid_le_maxjid {jobs : List job_t} {j : job_t} (hj : j ∈ jobs) : j.jid ≤ maxjid jobs :=
  foldl_maxjid_ge_mem jobs 0 j hj

/-- While the counter is above every job id in the table, no call stores a job
under a job id in use. -/
theorem reusesId_eq_false_of_counter_ahead (s : Shell) (op : JobOp)
    (h : ∀ j ∈ s.jobs, j.jid < s.nextjid) : reusesId s op = false := by
  cases op with
  | del pid => rfl
  | add pid state cmdline =>
    simp only [reusesId, decide_eq_false_iff_not, not_and]
    intro _ hmem
    simp only [presentJids, List.mem_map, List.mem_filter] at hmem
    obtain ⟨j, ⟨hj, -⟩, hjid⟩ := hmem
    have := h j hj
    omega

/-- A `deletejob` that removes a job leaves the counter above every job id in the
table. -/
theorem counter_ahead_after_deletejob (s : Shell) (pid : Int)
    (h : (deletejob s pid).2 = 1) :
    ∀ j ∈ (deletejob s pid).1.jobs, j.jid < (deletejob s pid).1.nextjid := by
  by_cases hpid : pid < 1
  · simp [deletejob, hpid] at h
  · cases hslot : firstSlot (fun j => decide (j.pid = pid)) s.jobs with
    | none => simp [deletejob, hpid, hslot] at h
    | some i =>
      simp only [deletejob, hpid, hslot, if_false]
      intro j hj
      have := jid_le_maxjid hj
      omega

theorem firstSlot_of_countP_one (p : job_t → Bool) (l : List job_t)
    (h : l.countP p = 1) :
    ∃ i, firstSlot p l = some i ∧ ∀ k j, l[k]? = some j → p j = true → k = i := by
  induction l with
  | nil => simp at h
  | cons a l ih =>
    by_cases hp : p a = true
    · refine ⟨0, by simp [firstSlot, hp], ?_⟩
      rw [List.countP_cons_of_pos _ _ hp] at h
      have h0 : l.countP p = 0 := by omega
      rw [List.countP_eq_zero] at h0
      intro k j hk hpj
      cases k with
      | zero => rfl
      | succ n =>
        rw [List.getElem?_cons_succ] at hk
        exact absurd hpj (h0 j (List.getElem?_mem hk))
    · rw [List.countP_cons_of_neg _ _ hp] at h
      obtain ⟨i, hi, huniq⟩ := ih h
      refine ⟨i + 1, by simp [firstSlot, hp, hi], ?_⟩
      intro k j hk hpj
      cases k with
      | zero =>
        rw [List.getElem?_cons_zero] at hk
        cases hk
        exact absurd hpj hp
      | succ n =>
        rw [List.getElem?_cons_succ] at hk
        rw [huniq n j hk hpj]

theorem fgpid_spec (l : List job_t) :
    fgpid l = 0 ∨
      ∃ (k : Nat) (job : job_t), l[k]? = some job ∧ job.state = FG ∧ job.pid = fgpid l := by
  induction l with
  | nil => simp [fgpid]
  | cons a l ih =>
    by_cases h : a.state = FG
    · exact Or.inr ⟨0, a, by simp, h, by simp [fgpid, h]⟩
    · rcases ih with h0 | ⟨k, job, hk, hst, hp⟩
      · exact Or.inl (by simp [fgpid, h, h0])
      · exact Or.inr ⟨k + 1, job, by simpa using hk, hst, by simp [fgpid, h, hp]⟩

/-- C5: in a table where exactly one entry has the (positive) process id `pid`,
for a wait status that is "exited", "killed by signal" or "stopped", `waitfg`
returns, and afterwards: for "exited" and "killed" no entry has that process
id (`getjobpid` finds none); for "stopped" the entry is still there with
state `ST` and its pid, job id and command line unchanged; in all three cases
`fgpid` is not `pid`, and every entry with another process id is unchanged. -/
theorem waitfg_contract (s : Shell) (pid : Int) (status : WaitStatus)
    (hpid : 0 < pid) (hone : s.jobs.countP (fun j => decide (j.pid = pid)) = 1)
    (hstatus : status ≠ WaitStatus.other) :
    ∃ s1 out, waitfg s pid status = Except.ok (s1, out) ∧
      ((((∃ code, status = WaitStatus.exited code) ∨ (∃ sig, status = WaitStatus.signaled sig)) ∧
          getjobpid s1.jobs pid = none ∧ ∀ j ∈ s1.jobs, j.pid ≠ pid) ∨
        ((∃ sig, status = WaitStatus.stopped sig) ∧
          ∃ (i : Nat) (job : job_t), s.jobs[i]? = some job ∧ job.pid = pid ∧
            s1.jobs[i]? = some { job with state := ST })) ∧
      fgpid s1.jobs ≠ pid ∧
      s1.jobs.length = s.jobs.length ∧
      ∀ (k : Nat) (job : job_t),
        s.jobs[k]? = some job → job.pid ≠ pid → s1.jobs[k]? = some job := by
  obtain ⟨i, hi, huniq⟩ := firstSlot_of_countP_one _ _ hone
  have hlt : i < s.jobs.length := firstSlot_lt hi
  obtain ⟨⟨ji, hji, hpji⟩, -⟩ := (firstSlot_some_iff _ _ i).1 hi
  have hpji : ji.pid = pid := by simpa using hpji
  have hp1 : ¬ pid < 1 := by omega
  have hp0 : pid ≠ 0 := by omega
  -- the table after the entry of `pid` was cleared holds no entry of `pid`
  have hgone : ∀ (k : Nat) (job : job_t),
      (s.jobs.set i clearjob)[k]? = some job → job.pid ≠ pid := by
    intro k job hk
    by_cases hik : i = k
    · subst hik
      rw [List.getElem?_set_self hlt] at hk
      cases hk
      simpa [clearjob] using hp0.symm
    · rw [List.getElem?_set_ne hik] at hk
      intro hp
      exact hik (huniq k job hk (by simpa using hp)).symm
  have hgone_mem : ∀ j ∈ s.jobs.set i clearjob, j.pid ≠ pid := by
    intro j hj
    obtain ⟨k, hk⟩ := List.mem_iff_getElem?.1 hj
    exact hgone k j hk
  have hfg_gone : fgpid (s.jobs.set i clearjob) ≠ pid := by
    rcases fgpid_spec (s.jobs.set i clearjob) with h0 | ⟨k, job, hk, -, hp⟩
    · omega
    · intro h
      exact hgone k job hk (hp.trans h)
  have hframe : ∀ (k : Nat) (job : job_t), s.jobs[k]? = some job → job.pid ≠ pid →
      (s.jobs.set i clearjob)[k]? = some job := by
    intro k job hk hp
    have hik : i ≠ k := by
      rintro rfl
      rw [hji] at hk
      cases hk
      exact hp hpji
    rw [List.getElem?_set_ne hik, hk]
  have hdel : deletejob s pid =
      ({ s with jobs := s.jobs.set i clearjob, nextjid := maxjid (s.jobs.set i clearjob) + 1 }, 1) := by
    simp [deletejob, hp1, hi]
  have hnone : getjobpid (s.jobs.set i clearjob) pid = none := by
    simp only [getjobpid, hp1, if_false]
    rw [firstSlot_none_iff]
    intro j hj
    simpa using hgone_mem j hj
  cases status with
  | other => exact absurd rfl hstatus
  | exited code =>
    refine ⟨_, _, by simp [waitfg, status_handling, hp0, hdel]; exact ⟨rfl, rfl⟩, ?_⟩
    exact ⟨Or.inl ⟨Or.inl ⟨code, rfl⟩, hnone, hgone_mem⟩, hfg_gone, by simp, hframe⟩
  | signaled sig =>
    refine ⟨_, _, by simp [waitfg, status_handling, hp0, hdel]; exact ⟨rfl, rfl⟩, ?_⟩
    exact ⟨Or.inl ⟨Or.inr ⟨sig, rfl⟩, hnone, hgone_mem⟩, hfg_gone, by simp, hframe⟩
  | stopped sig =>
    have hget : getjobpid s.jobs pid = some i := by simp [getjobpid, hp1, hi]
    refine ⟨_, _, by simp [waitfg, status_handling, hget]; exact ⟨rfl, rfl⟩, ?_⟩
    refine ⟨Or.inr ⟨⟨sig, rfl⟩, i, ji, hji, hpji, by simp [List.getElem?_modify, hji]⟩, ?_,
      by simp, ?_⟩
    · show fgpid (List.modify (fun j => { j with state := ST }) i s.jobs) ≠ pid
      rcases fgpid_spec (List.modify (fun j => { j with state := ST }) i s.jobs) with
        h0 | ⟨k, job, hk, hst, hp⟩
      · omega
      · intro h
        rw [List.getElem?_modify] at hk
        by_cases hik : i = k
        · subst hik
          simp only [hji, Option.map_eq_map, Option.map_some', if_true, Option.some.injEq] at hk
          rw [← hk] at hst
          simp at hst
        · cases hjk : s.jobs[k]? with
          | none => simp [hjk] at hk
          | some jk =>
            simp only [hjk, Option.map_eq_map, Option.map_some', hik, if_false,
              Option.some.injEq] at hk
            subst hk
            exact hik (huniq k jk hjk (by simpa using hp.trans h)).symm
    · intro k job hk hp
      have hik : i ≠ k := by
        rintro rfl
        rw [hji] at hk
        cases hk
        exact hp hpji
      simp [List.getElem?_modify, hk, hik]

/-- C5 at a table with the single job 100 in the foreground, stopped by signal 20. -/
theorem waitfg_contract_witness :
    (0 : Int) < 100 ∧ oneJobShell.jobs.countP (fun j => decide (j.pid = 100)) = 1 ∧
      ∃ s1 out, waitfg oneJobShell 100 (WaitStatus.stopped 20) = Except.ok (s1, out) ∧
        fgpid s1.jobs ≠ 100 ∧ s1.jobs.length = oneJobShell.jobs.length := by
  refine ⟨by decide, by decide, ?_⟩
  obtain ⟨s1, out, h, -, hfg, hlen, -⟩ :=
    waitfg_contract oneJobShell 100 (WaitStatus.stopped 20) (by decide) (by decide) (by decide)
  exact ⟨s1, out, h, hfg, hlen⟩

/-! ## The SIGCHLD handler -/

theorem deletejob_keeps_cleared (s : Shell) (q : Int) (i : Nat)
    (h : s.jobs[i]? = some clearjob) : (deletejob s q).1.jobs[i]? = some clearjob := by
  by_cases hq : q < 1
  · simpa [deletejob, hq] using h
  · cases hslot : firstSlot (fun j => decide (j.pid = q)) s.jobs with
    | none => simpa [deletejob, hq, hslot] using h
    | some k =>
      simp only [deletejob, hq, hslot, if_false]
      by_cases hki : k = i
      · subst hki
        exact List.getElem?_set_self (firstSlot_lt hslot)
      · rw [List.getElem?_set_ne hki]
        exact h

theorem deletejob_clears_slot (s : Shell) (pid : Int) (i : Nat) (hpid : 0 < pid)
    (h : firstSlot (fun j => decide (j.pid = pid)) s.jobs = some i) :
    (deletejob s pid).1.jobs[i]? = some clearjob := by
  have hp1 : ¬ pid < 1 := by omega
  simp only [deletejob, hp1, h, if_false]
  exact List.getElem?_set_self (firstSlot_lt h)

theorem deletejob_other_keeps_slot (s : Shell) (pid q : Int) (i : Nat) (hpid : 0 < pid)
    (hne : q ≠ pid) (h : firstSlot (fun j => decide (j.pid = pid)) s.jobs = some i) :
    firstSlot (fun j => decide (j.pid = pid)) (deletejob s q).1.jobs = some i := by
  by_cases hq : q < 1
  · simpa [deletejob, hq] using h
  · cases hslot : firstSlot (fun j => decide (j.pid = q)) s.jobs with
    | none => simpa [deletejob, hq, hslot] using h
    | some k =>
      simp only [deletejob, hq, hslot, if_false]
      obtain ⟨⟨jk, hjk, hpk⟩, -⟩ := (firstSlot_some_iff _ _ k).1 hslot
      obtain ⟨⟨ji, hji, hpi⟩, hmin⟩ := (firstSlot_some_iff _ _ i).1 h
      have hki : k ≠ i := by
        rintro rfl
        rw [hjk] at hji
        cases hji
        simp only [decide_eq_true_eq] at hpk hpi
        exact hne (hpk.symm.trans hpi)
      rw [firstSlot_some_iff]
      refine ⟨⟨ji, by rw [List.getElem?_set_ne hki]; exact hji, hpi⟩, ?_⟩
      intro m hm j hj
      by_cases hkm : k = m
      · subst hkm
        rw [List.getElem?_set_self (firstSlot_lt hslot)] at hj
        cases hj
        have : (0 : Int) ≠ pid := by omega
        simpa [clearjob] using this
      · rw [List.getElem?_set_ne hkm] at hj
        exact hmin m hm j hj

theorem reapLoop_keeps_cleared (reaped : List (Int × WaitStatus)) :
    ∀ (s : Shell) (i : Nat), s.jobs[i]? = some clearjob →
      (reapLoop s reaped).jobs[i]? = some clearjob := by
  induction reaped with
  | nil => intro s i h; simpa [reapLoop] using h
  | cons c rest ih =>
    intro s i h
    obtain ⟨q, st⟩ := c
    by_cases hq : q > 0
    · simp only [reapLoop, hq, if_true]
      exact ih _ i (deletejob_keeps_cleared s q i h)
    · simpa [reapLoop, hq] using h

theorem reapLoop_clears_slot (reaped : List (Int × WaitStatus)) (pid : Int) (st : WaitStatus)
    (i : Nat) (hpid : 0 < pid) :
    ∀ s : Shell, (∀ c ∈ reaped, 0 < c.1) → (pid, st) ∈ reaped →
      firstSlot (fun j => decide (j.pid = pid)) s.jobs = some i →
      (reapLoop s reaped).jobs[i]? = some clearjob := by
  induction reaped with
  | nil => intro s _ hmem; simp at hmem
  | cons c rest ih =>
    intro s hpos hmem hslot
    obtain ⟨q, sq⟩ := c
    have hq : q > 0 := hpos (q, sq) (List.mem_cons_self _ _)
    simp only [reapLoop, hq, if_true]
    by_cases hqp : q = pid
    · subst hqp
      exact reapLoop_keeps_cleared rest _ i (deletejob_clears_slot s q i hpid hslot)
    · have hmem' : (pid, st) ∈ rest := by
        rcases List.mem_cons.1 hmem with h | h
        · exact absurd (congrArg Prod.fst h).symm hqp
        · exact h
      exact ih _ (fun c hc => hpos c (List.mem_cons_of_mem _ hc)) hmem'
        (deletejob_other_keeps_slot s pid q i hpid hqp hslot)

/-- C6, as stated, fails: job 1 with pid 100 is registered, the handler reaps child
100 killed by signal 9, and prints nothing, so not the line
`Job [1] (100) terminated by signal 9`. -/
theorem sigchld_handler_prints_no_termination_line :
    pid2jid bgJobShell.jobs 100 = 1 ∧
      (sigchld_handler bgJobShell [(100, WaitStatus.signaled 9)] false).2 = [] ∧
      Event.print "Job [1] (100) terminated by signal 9\n" ∉
        (sigchld_handler bgJobShell [(100, WaitStatus.signaled 9)] false).2 := by
  decide

/-- C6, amended: for every table and every child the SIGCHLD handler reaps that
was killed by signal `n` and whose pid is registered in slot `i` of the table,
the handler clears that slot, and it prints no line about the job: all it
ever writes is `waitpid error in handler`, when its last `waitpid` failed. -/
theorem sigchld_handler_removes_job_silently (s : Shell) (reaped : List (Int × WaitStatus))
    (failed : Bool) (pid n : Int) (i : Nat)
    (hreaped : ∀ c ∈ reaped, 0 < c.1)
    (hchild : (pid, WaitStatus.signaled n) ∈ reaped)
    (hjob : getjobpid s.jobs pid = some i) :
    (sigchld_handler s reaped failed).1.jobs[i]? = some clearjob ∧
      (sigchld_handler s reaped failed).2 =
        (if failed then [Event.print "waitpid error in handler"] else []) := by
  have hpid : 0 < pid := hreaped _ hchild
  have hp1 : ¬ pid < 1 := by omega
  have hslot : firstSlot (fun j => decide (j.pid = pid)) s.jobs = some i := by
    simpa [getjobpid, hp1] using hjob
  exact ⟨reapLoop_clears_slot reaped pid _ i hpid s hreaped hchild hslot, rfl⟩

/-- C6, amended, at the table with job 1 = pid 100 and the reaped child 100 killed
by signal 9. -/
theorem sigchld_handler_removes_job_silently_witness :
    getjobpid bgJobShell.jobs 100 = some 0 ∧
      (sigchld_handler bgJobShell [(100, WaitStatus.signaled 9)] false).1.jobs[0]?
        = some clearjob ∧
      (sigchld_handler bgJobShell [(100, WaitStatus.signaled 9)] false).2 = [] :=
  ⟨by decide,
    (sigchld_handler_removes_job_silently bgJobShell [(100, WaitStatus.signaled 9)] false
      100 9 0 (by decide) (by decide) (by decide)).1,
    (sigchld_handler_removes_job_silently bgJobShell [(100, WaitStatus.signaled 9)] false
      100 9 0 (by decide) (by decide) (by decide)).2⟩

/-! ## The SIGINT and SIGTSTP handlers -/

/-- Neither forwarding handler writes to the job table or the counter. -/
theorem forwarders_leave_table (s : Shell) :
    (sigint_handler s).1 = s ∧ (sigtstp_handler s).1 = s :=
  ⟨rfl, rfl⟩

/-- With an entry in state `FG` in the table, both handlers signal the process
group of the first such entry. -/
theorem forwarders_signal_foreground_group (s : Shell) (h : ∃ j ∈ s.jobs, j.state = FG) :
    ∃ j ∈ s.jobs, j.state = FG ∧
      (sigint_handler s).2 = [Event.kill (-j.pid) Sig.SIGINT] ∧
      (sigtstp_handler s).2 = [Event.kill (-j.pid) Sig.SIGTSTP] := by
  have key : ∀ l : List job_t, (∃ j ∈ l, j.state = FG) →
      ∃ j ∈ l, j.state = FG ∧ fgpid l = j.pid := by
    intro l
    induction l with
    | nil => rintro ⟨j, hj, -⟩; simp at hj
    | cons a l ih =>
      intro hex
      by_cases ha : a.state = FG
      · exact ⟨a, List.mem_cons_self _ _, ha, by simp [fgpid, ha]⟩
      · obtain ⟨j, hj, hst⟩ := hex
        have hjl : j ∈ l := by
          rcases List.mem_cons.1 hj with rfl | hjl
          · exact absurd hst ha
          · exact hjl
        obtain ⟨k, hk, hkst, hkp⟩ := ih ⟨j, hjl, hst⟩
        exact ⟨k, List.mem_cons_of_mem _ hk, hkst, by simp [fgpid, ha, hkp]⟩
  obtain ⟨j, hj, hst, hp⟩ := key s.jobs h
  exact ⟨j, hj, hst, by simp [sigint_handler, hp], by simp [sigtstp_handler, hp]⟩

/-- C7 at the initialised table, where no entry is in state `FG`: `fgpid` returns
0 and each handler calls `kill` with target `-0 = 0`, which addresses the
shell's own process group. -/
theorem forwarders_signal_own_group_without_foreground_job :
    fgpid (initShell false).jobs = 0 ∧
      sigint_handler (initShell false) = (initShell false, [Event.kill 0 Sig.SIGINT]) ∧
      sigtstp_handler (initShell false) = (initShell false, [Event.kill 0 Sig.SIGTSTP]) := by
  decide

/-! ## Well-formed tables and the foreground job -/

theorem getjobpid_eq_some {jobs : List job_t} {pid : Int} {i : Nat}
    (h : getjobpid jobs pid = some i) :
    1 ≤ pid ∧ ∃ job, jobs[i]? = some job ∧ job.pid = pid ∧
      ∀ (k : Nat) (j : job_t), k < i → jobs[k]? = some j → j.pid ≠ pid := by
  unfold getjobpid at h
  by_cases hp : pid < 1
  · simp [hp] at h
  · simp only [hp, if_false] at h
    obtain ⟨⟨job, hjob, hpj⟩, hmin⟩ := (firstSlot_some_iff _ _ i).1 h
    refine ⟨by omega, job, hjob, by simpa using hpj, ?_⟩
    intro k j hk hj
    simpa using hmin k hk j hj

theorem getjobjid_eq_some {jobs : List job_t} {jid : Int} {i : Nat}
    (h : getjobjid jobs jid = some i) :
    1 ≤ jid ∧ ∃ job, jobs[i]? = some job ∧ job.jid = jid ∧
      ∀ (k : Nat) (j : job_t), k < i → jobs[k]? = some j → j.jid ≠ jid := by
  unfold getjobjid at h
  by_cases hp : jid < 1
  · simp [hp] at h
  · simp only [hp, if_false] at h
    obtain ⟨⟨job, hjob, hpj⟩, hmin⟩ := (firstSlot_some_iff _ _ i).1 h
    refine ⟨by omega, job, hjob, by simpa using hpj, ?_⟩
    intro k j hk hj
    simpa using hmin k hk j hj

theorem getjobpid_eq_none {jobs : List job_t} {pid : Int} (hp : 0 < pid)
    (h : getjobpid jobs pid = none) : ∀ j ∈ jobs, j.pid ≠ pid := by
  have hp1 : ¬ pid < 1 := by omega
  simp only [getjobpid, hp1, if_false] at h
  intro j hj
  simpa using (firstSlot_none_iff _ _).1 h j hj

theorem getElem?_modify_state {jobs : List job_t} {i k : Nat} {x : Int} {j : job_t}
    (h : (List.modify (fun j => { j with state := x }) i jobs)[k]? = some j) :
    ∃ j0, jobs[k]? = some j0 ∧ j0.pid = j.pid ∧ j0.jid = j.jid ∧
      ((i = k ∧ j.state = x) ∨ (i ≠ k ∧ j = j0)) := by
  rw [List.getElem?_modify] at h
  cases hk : jobs[k]? with
  | none => simp [hk] at h
  | some j0 =>
    simp only [hk, Option.map_eq_map, Option.map_some', Option.some.injEq] at h
    refine ⟨j0, rfl, ?_⟩
    by_cases hik : i = k
    · simp only [hik, if_true] at h
      subst h
      exact ⟨rfl, rfl, Or.inl ⟨hik, rfl⟩⟩
    · simp only [hik, if_false] at h
      subst h
      exact ⟨rfl, rfl, Or.inr ⟨hik, rfl⟩⟩

theorem tableOk_set_clear {jobs : List job_t} (h : TableOk jobs) (i : Nat) :
    TableOk (jobs.set i clearjob) := by
  obtain ⟨hwf, hdist⟩ := h
  constructor
  · intro j hj
    rcases List.mem_or_eq_of_mem_set hj with hj | rfl
    · exact hwf j hj
    · exact Or.inl ⟨rfl, rfl⟩
  · intro a b ja jb ha hb hne heq
    rw [List.getElem?_set] at ha hb
    by_cases hia : i = a
    · simp only [hia, if_true] at ha
      split at ha
      · cases ha
        simp [clearjob] at hne
      · cases ha
    · simp only [hia, if_false] at ha
      by_cases hib : i = b
      · simp only [hib, if_true] at hb
        split at hb
        · cases hb
          rw [heq] at hne
          simp [clearjob] at hne
        · cases hb
      · simp only [hib, if_false] at hb
        exact hdist a b ja jb ha hb hne heq

theorem tableOk_modify_state {jobs : List job_t} (h : TableOk jobs) (i : Nat) (x : Int) :
    TableOk (List.modify (fun j => { j with state := x }) i jobs) := by
  obtain ⟨hwf, hdist⟩ := h
  constructor
  · intro j hj
    obtain ⟨k, hk⟩ := List.mem_iff_getElem?.1 hj
    obtain ⟨j0, hj0, hp, hi, -⟩ := getElem?_modify_state hk
    have := hwf j0 (List.getElem?_mem hj0)
    rw [hp, hi] at this
    exact this
  · intro a b ja jb ha hb hne heq
    obtain ⟨ja0, hja0, hpa, -, -⟩ := getElem?_modify_state ha
    obtain ⟨jb0, hjb0, hpb, -, -⟩ := getElem?_modify_state hb
    exact hdist a b ja0 jb0 hja0 hjb0 (by rw [hpa]; exact hne) (by rw [hpa, hpb]; exact heq)

theorem tableOk_deletejob {s : Shell} (h : TableOk s.jobs) (pid : Int) :
    TableOk (deletejob s pid).1.jobs := by
  by_cases hpid : pid < 1
  · simpa [deletejob, hpid] using h
  · cases hslot : firstSlot (fun j => decide (j.pid = pid)) s.jobs with
    | none => simpa [deletejob, hpid, hslot] using h
    | some i =>
      simp only [deletejob, hpid, hslot, if_false]
      exact tableOk_set_clear h i

theorem noFg_deletejob {s : Shell} (h : NoFg s.jobs) (pid : Int) :
    NoFg (deletejob s pid).1.jobs := by
  by_cases hpid : pid < 1
  · simpa [deletejob, hpid] using h
  · cases hslot : firstSlot (fun j => decide (j.pid = pid)) s.jobs with
    | none => simpa [deletejob, hpid, hslot] using h
    | some i =>
      simp only [deletejob, hpid, hslot, if_false]
      intro j hj
      rcases List.mem_or_eq_of_mem_set hj with hj | rfl
      · exact h j hj
      · simp [clearjob]

theorem tableOk_addjob {s : Shell} (h : TableOk s.jobs) (pid state : Int) (cmdline : String)
    (hfresh : ∀ j ∈ s.jobs, j.pid ≠ pid) : TableOk (addjob s pid state cmdline).1.jobs := by
  by_cases hpid : pid < 1
  · simpa [addjob, hpid] using h
  · cases hslot : firstSlot (fun j => decide (j.pid = 0)) s.jobs with
    | none => simpa [addjob, hpid, hslot] using h
    | some i =>
      obtain ⟨hwf, hdist⟩ := h
      simp only [addjob, hpid, hslot, if_false]
      constructor
      · intro j hj
        rcases List.mem_or_eq_of_mem_set hj with hj | rfl
        · exact hwf j hj
        · exact Or.inr (by simp only; omega)
      · intro a b ja jb ha hb hne heq
        rw [List.getElem?_set] at ha hb
        by_cases hia : i = a
        · by_cases hib : i = b
          · omega
          · simp only [hia, if_true] at ha
            simp only [hib, if_false] at hb
            split at ha
            · cases ha
              exact absurd heq.symm (hfresh jb (List.getElem?_mem hb))
            · cases ha
        · simp only [hia, if_false] at ha
          by_cases hib : i = b
          · simp only [hib, if_true] at hb
            split at hb
            · cases hb
              exact absurd heq (hfresh ja (List.getElem?_mem ha))
            · cases hb
          · simp only [hib, if_false] at hb
            exact hdist a b ja jb ha hb hne heq

theorem fgOnly_addjob {s : Shell} (h : NoFg s.jobs) (pid state : Int) (cmdline : String) :
    FgOnly (addjob s pid state cmdline).1.jobs pid := by
  intro j hj hfg
  by_cases hpid : pid < 1
  · simp only [addjob, hpid, if_true] at hj
    exact absurd hfg (h j hj)
  · cases hslot : firstSlot (fun j => decide (j.pid = 0)) s.jobs with
    | none =>
      simp only [addjob, hpid, hslot, if_false] at hj
      exact absurd hfg (h j hj)
    | some i =>
      simp only [addjob, hpid, hslot, if_false] at hj
      rcases List.mem_or_eq_of_mem_set hj with hj | rfl
      · exact absurd hfg (h j hj)
      · rfl

theorem noFg_addjob {s : Shell} (h : NoFg s.jobs) (pid state : Int) (cmdline : String)
    (hstate : state ≠ FG) : NoFg (addjob s pid state cmdline).1.jobs := by
  intro j hj
  by_cases hpid : pid < 1
  · simp only [addjob, hpid, if_true] at hj
    exact h j hj
  · cases hslot : firstSlot (fun j => decide (j.pid = 0)) s.jobs with
    | none =>
      simp only [addjob, hpid, hslot, if_false] at hj
      exact h j hj
    | some i =>
      simp only [addjob, hpid, hslot, if_false] at hj
      rcases List.mem_or_eq_of_mem_set hj with hj | rfl
      · exact h j hj
      · exact hstate

theorem noFg_deletejob_of_fgOnly {s : Shell} {p : Int} (hok : TableOk s.jobs)
    (hfg : FgOnly s.jobs p) (hp : 1 ≤ p) : NoFg (deletejob s p).1.jobs := by
  have hp1 : ¬ p < 1 := by omega
  cases hslot : firstSlot (fun j => decide (j.pid = p)) s.jobs with
  | none =>
    simp only [deletejob, hp1, hslot, if_false]
    intro j hj hst
    have := (firstSlot_none_iff _ _).1 hslot j hj
    simp only [decide_eq_false_iff_not] at this
    exact this (hfg j hj hst)
  | some i =>
    simp only [deletejob, hp1, hslot, if_false]
    obtain ⟨⟨ji, hji, hpi⟩, -⟩ := (firstSlot_some_iff _ _ i).1 hslot
    simp only [decide_eq_true_eq] at hpi
    intro j hj hst
    obtain ⟨k, hk⟩ := List.mem_iff_getElem?.1 hj
    rw [List.getElem?_set] at hk
    by_cases hik : i = k
    · simp only [hik, if_true] at hk
      split at hk
      · cases hk
        simp [clearjob] at hst
      · cases hk
    · simp only [hik, if_false] at hk
      have hpk : j.pid = p := hfg j (List.getElem?_mem hk) hst
      exact hik (hok.2 i k ji j hji hk (by omega) (hpi.trans hpk.symm))

theorem waitfg_clears_foreground {s s2 : Shell} {p : Int} {status : WaitStatus}
    {out : List Event} (hok : TableOk s.jobs) (hfg : FgOnly s.jobs p) (hp : 1 ≤ p)
    (hstatus : status ≠ WaitStatus.other) (h : waitfg s p status = Except.ok (s2, out)) :
    TableOk s2.jobs ∧ NoFg s2.jobs := by
  have hp0 : p ≠ 0 := by omega
  cases status with
  | other => exact absurd rfl hstatus
  | exited code =>
    simp only [waitfg, status_handling, ne_eq, hp0, not_false_eq_true, if_true,
      Except.ok.injEq, Prod.mk.injEq] at h
    rw [← h.1]
    exact ⟨tableOk_deletejob hok p, noFg_deletejob_of_fgOnly hok hfg hp⟩
  | signaled sig =>
    simp only [waitfg, status_handling, ne_eq, hp0, not_false_eq_true, if_true,
      Except.ok.injEq, Prod.mk.injEq] at h
    rw [← h.1]
    exact ⟨tableOk_deletejob hok p, noFg_deletejob_of_fgOnly hok hfg hp⟩
  | stopped sig =>
    cases hget : getjobpid s.jobs p with
    | none => simp [waitfg, status_handling, hget] at h
    | some i =>
      simp only [waitfg, status_handling, hget, ne_eq, not_true_eq_false, if_false,
        Except.ok.injEq, Prod.mk.injEq] at h
      rw [← h.1]
      refine ⟨tableOk_modify_state hok i ST, ?_⟩
      obtain ⟨-, ji, hji, hpi, -⟩ := getjobpid_eq_some hget
      intro j hj hst
      obtain ⟨k, hk⟩ := List.mem_iff_getElem?.1 hj
      obtain ⟨j0, hj0, -, -, hcase⟩ := getElem?_modify_state hk
      rcases hcase with ⟨-, hx⟩ | ⟨hik, hjj⟩
      · rw [hx] at hst
        simp at hst
      · subst hjj
        have hpk : j.pid = p := hfg j (List.getElem?_mem hj0) hst
        exact hik (hok.2 i k ji j hji hj0 (by omega) (hpi.trans hpk.symm))

theorem bg_fg_errorhandling_some {jobs : List job_t} {arg : Option String} {bg : Bool}
    {i : Nat} {out : List Event} (h : bg_fg_errorhandling jobs arg bg = (some i, out)) :
    out = [] ∧ ∃ job, jobs[i]? = some job ∧ (1 ≤ job.pid ∨ 1 ≤ job.jid) := by
  unfold bg_fg_errorhandling at h
  cases arg with
  | none => simp at h
  | some str =>
    simp only at h
    split at h
    · split at h
      · cases hget : getjobpid jobs (atoi str.data) with
        | none => simp [hget] at h
        | some k =>
          simp only [hget, Prod.mk.injEq, Option.some.injEq] at h
          obtain ⟨hk, hout⟩ := h
          subst hk
          obtain ⟨h1, job, hjob, hpid, -⟩ := getjobpid_eq_some hget
          exact ⟨hout.symm, job, hjob, Or.inl (by omega)⟩
      · simp at h
    · split at h
      · cases hget : getjobjid jobs (atoi str.data.tail) with
        | none => simp [hget] at h
        | some k =>
          simp only [hget, Prod.mk.injEq, Option.some.injEq] at h
          obtain ⟨hk, hout⟩ := h
          subst hk
          obtain ⟨h1, job, hjob, hjid, -⟩ := getjobjid_eq_some hget
          exact ⟨hout.symm, job, hjob, Or.inr (by omega)⟩
      · simp at h

theorem do_bgfg_keeps_invariant {s s2 : Shell} {argv : List String} {status : WaitStatus}
    {out : List Event} (hok : TableOk s.jobs) (hno : NoFg s.jobs)
    (hstatus : status ≠ WaitStatus.other)
    (h : do_bgfg s argv status = Except.ok (s2, out)) :
    TableOk s2.jobs ∧ NoFg s2.jobs := by
  unfold do_bgfg at h
  split at h
  · simp only [Except.ok.injEq, Prod.mk.injEq] at h
    rw [← h.1]
    exact ⟨hok, hno⟩
  · simp only at h
    split at h
    · simp only [Except.ok.injEq, Prod.mk.injEq] at h
      rw [← h.1]
      exact ⟨hok, hno⟩
    · rename_i i out0 hres
      obtain ⟨-, job, hjob, hpos⟩ := bg_fg_errorhandling_some hres
      have hpid : 1 ≤ job.pid := by
        rcases hpos with hp | hj
        · exact hp
        · rcases hok.1 job (List.getElem?_mem hjob) with ⟨-, h0⟩ | hp
          · omega
          · exact hp
      simp only [hjob] at h
      split at h
      · simp only [Except.ok.injEq, Prod.mk.injEq] at h
        rw [← h.1]
        refine ⟨tableOk_modify_state hok i BG, ?_⟩
        intro j hj hst
        obtain ⟨k, hk⟩ := List.mem_iff_getElem?.1 hj
        obtain ⟨j0, hj0, -, -, hcase⟩ := getElem?_modify_state hk
        rcases hcase with ⟨-, hx⟩ | ⟨-, hjj⟩
        · rw [hx] at hst
          simp at hst
        · subst hjj
          exact hno j (List.getElem?_mem hj0) hst
      · split at h
        · cases h
        · rename_i s1 out1 hwait
          simp only [Except.ok.injEq, Prod.mk.injEq] at h
          rw [← h.1]
          refine waitfg_clears_foreground (tableOk_modify_state hok i FG) ?_ hpid hstatus hwait
          intro j hj hst
          obtain ⟨k, hk⟩ := List.mem_iff_getElem?.1 hj
          obtain ⟨j0, hj0, hp, -, hcase⟩ := getElem?_modify_state hk
          rcases hcase with ⟨hik, -⟩ | ⟨-, hjj⟩
          · subst hik
            rw [hjob] at hj0
            cases hj0
            exact hp.symm
          · subst hjj
            exact absurd hst (hno j (List.getElem?_mem hj0))

theorem reapLoop_keeps_invariant (reaped : List (Int × WaitStatus)) :
    ∀ s : Shell, TableOk s.jobs → NoFg s.jobs →
      TableOk (reapLoop s reaped).jobs ∧ NoFg (reapLoop s reaped).jobs := by
  induction reaped with
  | nil => intro s hok hno; exact ⟨hok, hno⟩
  | cons c rest ih =>
    intro s hok hno
    obtain ⟨q, st⟩ := c
    by_cases hq : q > 0
    · simp only [reapLoop, hq, if_true]
      exact ih _ (tableOk_deletejob hok q) (noFg_deletejob hno q)
    · simp only [reapLoop, hq, if_false]
      exact ⟨hok, hno⟩

theorem builtin_cmd_keeps_invariant {s s2 : Shell} {argv : List String} {status : WaitStatus}
    {out : List Event} (hok : TableOk s.jobs) (hno : NoFg s.jobs)
    (hstatus : status ≠ WaitStatus.other)
    (h : builtin_cmd s argv status = Except.ok (some (s2, out))) :
    TableOk s2.jobs ∧ NoFg s2.jobs := by
  unfold builtin_cmd at h
  split at h
  · cases h
  · split at h
    · simp only [Except.ok.injEq, Option.some.injEq, Prod.mk.injEq] at h
      rw [← h.1]
      exact ⟨hok, hno⟩
    · split at h
      · split at h
        · cases h
        · rename_i r hdo
          simp only [Except.ok.injEq, Option.some.injEq] at h
          subst h
          exact do_bgfg_keeps_invariant hok hno hstatus hdo
      · cases h

theorem eval_keeps_invariant {s s2 : Shell} {cmdline : String} {forked : Int}
    {status : WaitStatus} {out : List Event} (hok : TableOk s.jobs) (hno : NoFg s.jobs)
    (hadm : stepAdmissible s (Step.command cmdline forked status) = true)
    (h : eval s cmdline forked status = Except.ok (s2, out)) :
    TableOk s2.jobs ∧ NoFg s2.jobs := by
  simp only [stepAdmissible, Bool.and_eq_true, decide_eq_true_eq] at hadm
  obtain ⟨⟨hpos, hfresh⟩, hstatus⟩ := hadm
  have hfresh' := getjobpid_eq_none hpos hfresh
  unfold eval at h
  split at h
  · cases h
  · rename_i argv bg hparse
    split at h
    · simp only [Except.ok.injEq, Prod.mk.injEq] at h
      rw [← h.1]
      exact ⟨hok, hno⟩
    · split at h
      · cases h
      · rename_i r hb
        simp only [Except.ok.injEq] at h
        subst h
        exact builtin_cmd_keeps_invariant hok hno hstatus hb
      · have hn0 : ¬ forked < 0 := by omega
        have hne0 : ¬ forked = 0 := by omega
        simp only [hn0, hne0, if_false] at h
        split at h
        · split at h
          · cases h
          · rename_i s3 out3 hwait
            simp only [Except.ok.injEq, Prod.mk.injEq] at h
            rw [← h.1]
            exact waitfg_clears_foreground (tableOk_addjob hok forked FG cmdline hfresh')
              (fgOnly_addjob hno forked FG cmdline) (by omega) hstatus hwait
        · simp only [Except.ok.injEq, Prod.mk.injEq] at h
          rw [← h.1]
          exact ⟨tableOk_addjob hok forked BG cmdline hfresh',
            noFg_addjob hno forked BG cmdline (by decide)⟩

theorem applyStep_keeps_invariant {s s2 : Shell} {step : Step} (hok : TableOk s.jobs)
    (hno : NoFg s.jobs) (hadm : stepAdmissible s step = true)
    (h : applyStep s step = Except.ok s2) : TableOk s2.jobs ∧ NoFg s2.jobs := by
  cases step with
  | command cmdline forked status =>
    simp only [applyStep] at h
    split at h
    · rename_i s1 out heval
      simp only [Except.ok.injEq] at h
      subst h
      exact eval_keeps_invariant hok hno hadm heval
    · cases h
  | sigchld reaped failed =>
    simp only [applyStep, sigchld_handler, Except.ok.injEq] at h
    subst h
    exact reapLoop_keeps_invariant reaped s hok hno

theorem runSteps_keeps_invariant (steps : List Step) :
    ∀ s s2 : Shell, TableOk s.jobs → NoFg s.jobs → admissibleRun s steps = true →
      runSteps s steps = Except.ok s2 → TableOk s2.jobs ∧ NoFg s2.jobs := by
  induction steps with
  | nil =>
    intro s s2 hok hno _ h
    simp only [runSteps, Except.ok.injEq] at h
    subst h
    exact ⟨hok, hno⟩
  | cons step rest ih =>
    intro s s2 hok hno hadm h
    simp only [admissibleRun, Bool.and_eq_true] at hadm
    simp only [runSteps] at h
    cases happ : applyStep s step with
    | error e => simp [happ] at h
    | ok s1 =>
      simp only [happ] at h hadm
      obtain ⟨hok1, hno1⟩ := applyStep_keeps_invariant hok hno hadm.1 happ
      exact ih s1 s2 hok1 hno1 hadm.2 h

theorem tableOk_init (verbose : Bool) : TableOk (initShell verbose).jobs := by
  constructor
  · intro j hj
    simp only [initShell, initjobs] at hj
    rw [List.eq_of_mem_replicate hj]
    exact Or.inl ⟨rfl, rfl⟩
  · intro a b ja jb ha _ hne _
    have := List.getElem?_mem ha
    simp only [initShell, initjobs] at this
    rw [List.eq_of_mem_replicate this] at hne
    simp [clearjob] at hne

theorem noFg_init (verbose : Bool) : NoFg (initShell verbose).jobs := by
  intro j hj
  simp only [initShell, initjobs] at hj
  rw [List.eq_of_mem_replicate hj]
  simp [clearjob]

/-- C2: starting from the initialised table, after every sequence of steps (command
lines run by `eval`, so foreground launches, background launches and `fg`/`bg`
transitions, and runs of the SIGCHLD handler) in which every `fork` returns a
positive process id that is not in the table and every blocking wait reports
exited, killed by a signal or stopped, at most one table entry has state
`FG`. -/
theorem single_foreground_job (verbose : Bool) (steps : List Step) (s : Shell)
    (hadm : admissibleRun (initShell verbose) steps = true)
    (hrun : runSteps (initShell verbose) steps = Except.ok s) :
    countFG s.jobs ≤ 1 := by
  obtain ⟨-, hno⟩ := runSteps_keeps_invariant steps _ s (tableOk_init verbose)
    (noFg_init verbose) hadm hrun
  have h0 : countFG s.jobs = 0 := by
    unfold countFG
    rw [List.countP_eq_zero]
    intro j hj
    simpa using hno j hj
  omega

/-- C2 at `sampleRun`. -/
theorem single_foreground_job_witness :
    admissibleRun (initShell false) sampleRun = true ∧
      runSteps (initShell false) sampleRun = Except.ok sampleRunEnd ∧
      countFG sampleRunEnd.jobs ≤ 1 :=
  ⟨by decide, by decide,
    single_foreground_job false sampleRun sampleRunEnd (by decide) (by decide)⟩

/-! ## Background launch -/

theorem pid2jidScan_set_fresh (p jid state : Int) (cmdline : String) :
    ∀ (jobs : List job_t) (i : Nat), (∀ j ∈ jobs, j.pid ≠ p) → i < jobs.length →
      pid2jidScan p (jobs.set i { pid := p, jid := jid, state := state, cmdline := cmdline })
        = jid := by
  intro jobs
  induction jobs with
  | nil => intro i _ hi; simp at hi
  | cons a l ih =>
    intro i hfresh hi
    cases i with
    | zero => simp [pid2jidScan]
    | succ n =>
      have ha : a.pid ≠ p := hfresh a (List.mem_cons_self _ _)
      simp only [List.set_cons_succ, pid2jidScan, ha, if_false]
      exact ih n (fun j hj => hfresh j (List.mem_cons_of_mem _ hj)) (by simpa using hi)

theorem firstSlot_set_fresh (p jid state : Int) (cmdline : String) (jobs : List job_t)
    (i : Nat) (hfresh : ∀ j ∈ jobs, j.pid ≠ p) (hi : i < jobs.length) :
    firstSlot (fun j => decide (j.pid = p))
      (jobs.set i { pid := p, jid := jid, state := state, cmdline := cmdline }) = some i := by
  rw [firstSlot_some_iff]
  refine ⟨⟨_, List.getElem?_set_self hi, by simp⟩, ?_⟩
  intro k hk j hj
  rw [List.getElem?_set_ne (by omega)] at hj
  simpa using hfresh j (List.getElem?_mem hj)

/-- C4, as stated, fails: in the table with all sixteen slots in use, the
non-builtin background line `sleep 5 &` with `fork` returning the new pid 100
leaves the table without an entry for pid 100, and the announcement carries
job id 0. -/
theorem background_launch_untracked_when_table_full :
    parseline "sleep 5 &\n" = Except.ok (["sleep", "5"], true) ∧
      builtin_cmd fullShell ["sleep", "5"] WaitStatus.other = Except.ok none ∧
      getjobpid fullShell.jobs 100 = none ∧
      eval fullShell "sleep 5 &\n" 100 WaitStatus.other =
        Except.ok (fullShell, [Event.print "Tried to create too many jobs\n",
          Event.print "[0] (100) sleep 5 &\n"]) := by
  decide

/-- C4, amended: for every table with an empty slot and every non-builtin
background command line whose `fork` yields a child pid `p > 0` not already in
the table, `eval` returns in the parent with an entry for `p` in the table
(found by `getjobpid`) that has state `BG`, the raw command line and the
previous value of the counter as job id `j`; after the `Added job` line of
`addjob`, printed only in verbose mode, the announcement `[j] (p) <rawLine>`
is printed. -/
theorem eval_background_launch (s : Shell) (cmdline : String) (argv : List String) (p : Int)
    (status : WaitStatus)
    (hparse : parseline cmdline = Except.ok (argv, true)) (hargv : argv ≠ [])
    (hquit : argv.head? ≠ some "quit") (hjobs : argv.head? ≠ some "jobs")
    (hfg : argv.head? ≠ some "fg") (hbg : argv.head? ≠ some "bg")
    (hp : 0 < p) (hfresh : getjobpid s.jobs p = none)
    (hroom : ∃ j ∈ s.jobs, j.pid = 0) :
    ∃ (s1 : Shell) (i : Nat),
      eval s cmdline p status = Except.ok (s1,
        (if s.verbose then
          [Event.print ("Added job [" ++ toString s.nextjid ++ "] " ++ toString p ++ " "
            ++ cmdline ++ "\n")]
         else []) ++
        [Event.print ("[" ++ toString s.nextjid ++ "] (" ++ toString p ++ ") " ++ cmdline)]) ∧
      getjobpid s1.jobs p = some i ∧
      s1.jobs[i]? = some { pid := p, jid := s.nextjid, state := BG, cmdline := cmdline } := by
  have hfresh' := getjobpid_eq_none hp hfresh
  have hp1 : ¬ p < 1 := by omega
  have hn0 : ¬ p < 0 := by omega
  have hne0 : ¬ p = 0 := by omega
  obtain ⟨j0, hj0, hj0pid⟩ := hroom
  cases hslot : firstSlot (fun j => decide (j.pid = 0)) s.jobs with
  | none =>
    have := (firstSlot_none_iff _ _).1 hslot j0 hj0
    simp [hj0pid] at this
  | some i =>
    have hi : i < s.jobs.length := firstSlot_lt hslot
    have hadd : addjob s p BG cmdline =
        ({ s with jobs := s.jobs.set i { pid := p, jid := s.nextjid, state := BG, cmdline := cmdline },
                  nextjid := if s.nextjid + 1 > (MAXJOBS : Int) then 1 else s.nextjid + 1 }, 1,
          if s.verbose then
            [Event.print ("Added job [" ++ toString s.nextjid ++ "] " ++ toString p ++ " "
              ++ cmdline ++ "\n")]
          else []) := by
      simp [addjob, hp1, hslot]
    have hnb : builtin_cmd s argv status = Except.ok none := by
      simp [builtin_cmd, hquit, hjobs, hfg, hbg]
    refine ⟨(addjob s p BG cmdline).1, i, ?_, ?_, ?_⟩
    · have hj : pid2jid (addjob s p BG cmdline).1.jobs p = s.nextjid := by
        rw [hadd]
        simp only [pid2jid, hp1, if_false]
        exact pid2jidScan_set_fresh p s.nextjid BG cmdline s.jobs i hfresh' hi
      simp only [eval, hparse, hargv, if_false, hnb, hn0, hne0, not_true_eq_false, hj]
      rw [hadd]
    · rw [hadd]
      simp only [getjobpid, hp1, if_false]
      exact firstSlot_set_fresh p s.nextjid BG cmdline s.jobs i hfresh' hi
    · rw [hadd]
      exact List.getElem?_set_self hi

/-- C4, amended, at the initialised table, the line `sleep 5 &` and the child 100. -/
theorem eval_background_launch_witness :
    ∃ (s1 : Shell) (i : Nat),
      eval (initShell false) "sleep 5 &\n" 100 WaitStatus.other =
        Except.ok (s1, [Event.print "[1] (100) sleep 5 &\n"]) ∧
      getjobpid s1.jobs 100 = some i ∧
      s1.jobs[i]? = some { pid := 100, jid := 1, state := BG, cmdline := "sleep 5 &\n" } :=
  eval_background_launch (initShell false) "sleep 5 &\n" ["sleep", "5"] 100 WaitStatus.other
    (by decide) (by decide) (by decide) (by decide) (by decide) (by decide) (by decide)
    (by decide) ⟨clearjob, by decide, rfl⟩

/-! ## `bg` on a stopped job -/

theorem listjobsEntry_mem_listjobsFrom :
    ∀ (jobs : List job_t) (n i : Nat) (job : job_t), jobs[i]? = some job → job.pid ≠ 0 →
      listjobsEntry (n + i) job ∈ listjobsFrom n jobs := by
  intro jobs
  induction jobs with
  | nil => intro n i job h; simp at h
  | cons a l ih =>
    intro n i job h hp
    cases i with
    | zero =>
      simp only [List.getElem?_cons_zero, Option.some.injEq] at h
      subst h
      simp [listjobsFrom, hp]
    | succ m =>
      rw [List.getElem?_cons_succ] at h
      have := ih (n + 1) m job h hp
      have hidx : n + 1 + m = n + (m + 1) := by omega
      rw [hidx] at this
      simp only [listjobsFrom]
      split
      · exact List.mem_cons_of_mem _ this
      · exact this

theorem modify_eq_set {jobs : List job_t} {i : Nat} {job : job_t} (f : job_t → job_t)
    (h : jobs[i]? = some job) : List.modify f i jobs = jobs.set i (f job) := by
  rw [List.modify_eq_set_get?]
  simp [h]

/-- C9: for every table with an entry in use in state `ST` with job id `j`, pid `p`
and command line `c`, `bg` with a selector that resolves to that entry sends
SIGCONT to target `-p`, prints `[j] (p) c`, and returns with the table in
which exactly that entry changed, to state `BG` with the same pid, job id and
command line; the text `listjobs` then writes for the entry is
`[j] (p) Running c`. -/
theorem bg_resumes_stopped_job (s : Shell) (arg : String) (status : WaitStatus) (i : Nat)
    (j p : Int) (c : String)
    (hentry : s.jobs[i]? = some { pid := p, jid := j, state := ST, cmdline := c })
    (hpresent : p ≠ 0)
    (hres : (bg_fg_errorhandling s.jobs (some arg) true).1 = some i) :
    do_bgfg s ["bg", arg] status =
        Except.ok ({ s with jobs := s.jobs.set i { pid := p, jid := j, state := BG, cmdline := c } },
          [Event.kill (-p) Sig.SIGCONT,
           Event.print ("[" ++ toString j ++ "] (" ++ toString p ++ ") " ++ c)]) ∧
      listjobsEntry i { pid := p, jid := j, state := BG, cmdline := c }
        = "[" ++ toString j ++ "] (" ++ toString p ++ ") " ++ "Running " ++ c ∧
      "[" ++ toString j ++ "] (" ++ toString p ++ ") " ++ "Running " ++ c
        ∈ listjobs (s.jobs.set i { pid := p, jid := j, state := BG, cmdline := c }) := by
  have hlt : i < s.jobs.length := (List.getElem?_eq_some.1 hentry).1
  have hline : listjobsEntry i { pid := p, jid := j, state := BG, cmdline := c }
      = "[" ++ toString j ++ "] (" ++ toString p ++ ") " ++ "Running " ++ c := by
    simp [listjobsEntry]
  refine ⟨?_, hline, ?_⟩
  · cases hr : bg_fg_errorhandling s.jobs (some arg) true with
    | mk r out =>
      rw [hr] at hres
      simp only at hres
      subst hres
      obtain ⟨hout, -⟩ := bg_fg_errorhandling_some hr
      subst hout
      simp [do_bgfg, hr, hentry, modify_eq_set _ hentry]
  · rw [← hline]
    have := listjobsEntry_mem_listjobsFrom
      (s.jobs.set i { pid := p, jid := j, state := BG, cmdline := c }) 0 i
      { pid := p, jid := j, state := BG, cmdline := c } (List.getElem?_set_self hlt) hpresent
    simpa [listjobs] using this

/-- C9 at the table with the stopped job 1 (pid 101) and the selector `%1`. -/
theorem bg_resumes_stopped_job_witness :
    do_bgfg stoppedJobShell ["bg", "%1"] WaitStatus.other =
        Except.ok ({ stoppedJobShell with
            jobs := stoppedJobShell.jobs.set 0
              { pid := 101, jid := 1, state := BG, cmdline := "sleep 9\n" } },
          [Event.kill (-101) Sig.SIGCONT, Event.print "[1] (101) sleep 9\n"]) ∧
      "[1] (101) Running sleep 9\n" ∈ listjobs (stoppedJobShell.jobs.set 0
        { pid := 101, jid := 1, state := BG, cmdline := "sleep 9\n" }) :=
  ⟨(bg_resumes_stopped_job stoppedJobShell "%1" WaitStatus.other 0 1 101 "sleep 9\n"
      (by decide) (by decide) (by decide)).1,
    (bg_resumes_stopped_job stoppedJobShell "%1" WaitStatus.other 0 1 101 "sleep 9\n"
      (by decide) (by decide) (by decide)).2.2⟩

/-! ## Resolving the selector of `fg` and `bg` -/

theorem atoi_of_lt (ds : List Char) (h : (decimalValue ds : Int) < 2 ^ 31) :
    atoi ds = (decimalValue ds : Int) := by
  have h0 : (0 : Int) ≤ (decimalValue ds : Int) := Int.natCast_nonneg _
  have hmin : min (decimalValue ds : Int) (2 ^ 63 - 1) = (decimalValue ds : Int) := by
    apply min_eq_left
    norm_num at h ⊢
    omega
  unfold atoi toInt32
  rw [hmin]
  norm_num at h ⊢
  omega

theorem firstSlot_isSome_iff (p : job_t → Bool) (l : List job_t) :
    (firstSlot p l).isSome = l.any p := by
  induction l with
  | nil => rfl
  | cons a l ih =>
    by_cases h : p a = true
    · simp [firstSlot, h]
    · simp [firstSlot, h, ← ih]

theorem append_ne_empty (a b : String) (hb : b.data ≠ []) : a ++ b ≠ "" := by
  intro h
  have := congrArg String.data h
  simp only [String.data_append, List.append_eq_nil] at this
  exact hb this.2

theorem bg_fg_errorhandling_none {jobs : List job_t} {arg : Option String} {bg : Bool}
    (h : (bg_fg_errorhandling jobs arg bg).1 = none) :
    ∃ msg, msg ≠ "" ∧ bg_fg_errorhandling jobs arg bg = (none, [Event.print msg]) := by
  unfold bg_fg_errorhandling at h ⊢
  cases arg with
  | none => exact ⟨_, append_ne_empty _ _ (by decide), rfl⟩
  | some str =>
    simp only at h ⊢
    split
    · split
      · cases hget : getjobpid jobs (atoi str.data) with
        | none => exact ⟨_, append_ne_empty _ _ (by decide), rfl⟩
        | some k =>
          rename_i h1 h2
          simp [h1, h2, hget] at h
      · exact ⟨_, append_ne_empty _ _ (by decide), rfl⟩
    · split
      · cases hget : getjobjid jobs (atoi str.data.tail) with
        | none => exact ⟨_, append_ne_empty _ _ (by decide), rfl⟩
        | some k =>
          rename_i h1 h2
          rw [if_neg h1, if_pos h2, hget] at h
          simp at h
      · exact ⟨_, append_ne_empty _ _ (by decide), rfl⟩

theorem bg_fg_errorhandling_isSome (jobs : List job_t) (arg : Option String) (bg : Bool)
    (hslots : ∀ j ∈ jobs, (j.pid = 0 ↔ j.jid = 0))
    (hrange : ∀ str, arg = some str → isnumstr (selectorDigits str) = true →
      (decimalValue (selectorDigits str) : Int) < 2 ^ 31) :
    (bg_fg_errorhandling jobs arg bg).1.isSome = resolvable jobs arg := by
  cases arg with
  | none => rfl
  | some str =>
    have hr0 := hrange str rfl
    have hv0 : (0 : Int) ≤ (decimalValue (selectorDigits str) : Int) := Int.natCast_nonneg _
    have hnil : selectorDigits str = [] → (decimalValue (selectorDigits str) : Int) = 0 := by
      intro h
      rw [h]
      rfl
    by_cases hhead : str.data.head? = some '%'
    · have hd : selectorDigits str = str.data.tail := by simp [selectorDigits, hhead]
      rw [hd] at hr0 hv0 hnil
      by_cases hnum : isnumstr str.data.tail = true
      · have hr := hr0 hnum
        have hres : (bg_fg_errorhandling jobs (some str) bg).1
            = getjobjid jobs (decimalValue str.data.tail : Int) := by
          simp only [bg_fg_errorhandling, hhead, ne_eq, not_true_eq_false, if_false, hnum,
            if_true, atoi_of_lt _ hr]
          cases getjobjid jobs (decimalValue str.data.tail : Int) <;> rfl
        rw [hres, Bool.eq_iff_iff]
        simp only [resolvable, hd, hnum, hhead, if_true, Bool.true_and, Bool.and_eq_true,
          decide_eq_true_eq, List.any_eq_true, getjobjid]
        constructor
        · intro h
          by_cases h1 : (decimalValue str.data.tail : Int) < 1
          · rw [if_pos h1] at h
            cases h
          · simp only [h1, if_false, firstSlot_isSome_iff, List.any_eq_true,
              decide_eq_true_eq] at h
            obtain ⟨j, hj, hjid⟩ := h
            refine ⟨fun hn => h1 (by rw [hnil hn]; decide), j, hj, ?_, hjid⟩
            intro hp
            have := (hslots j hj).1 hp
            omega
        · rintro ⟨-, j, hj, hp, hjid⟩
          have hj0 : j.jid ≠ 0 := fun h0 => hp ((hslots j hj).2 h0)
          have h1 : ¬ (decimalValue str.data.tail : Int) < 1 := by omega
          simp only [h1, if_false, firstSlot_isSome_iff, List.any_eq_true, decide_eq_true_eq]
          exact ⟨j, hj, hjid⟩
      · have hres : (bg_fg_errorhandling jobs (some str) bg).1 = none := by
          simp [bg_fg_errorhandling, hhead, hnum]
        rw [hres]
        simp [resolvable, hd, hnum]
    · have hd : selectorDigits str = str.data := by simp [selectorDigits, hhead]
      rw [hd] at hr0 hv0 hnil
      by_cases hnum : isnumstr str.data = true
      · have hr := hr0 hnum
        have hres : (bg_fg_errorhandling jobs (some str) bg).1
            = getjobpid jobs (decimalValue str.data : Int) := by
          simp only [bg_fg_errorhandling, hhead, ne_eq, not_false_eq_true, if_true, hnum,
            atoi_of_lt _ hr]
          cases getjobpid jobs (decimalValue str.data : Int) <;> rfl
        rw [hres, Bool.eq_iff_iff]
        simp only [resolvable, hd, hnum, hhead, if_false, Bool.true_and, Bool.and_eq_true,
          decide_eq_true_eq, List.any_eq_true, getjobpid]
        constructor
        · intro h
          by_cases h1 : (decimalValue str.data : Int) < 1
          · rw [if_pos h1] at h
            cases h
          · simp only [h1, if_false, firstSlot_isSome_iff, List.any_eq_true,
              decide_eq_true_eq] at h
            obtain ⟨j, hj, hpid⟩ := h
            refine ⟨fun hn => h1 (by rw [hnil hn]; decide), j, hj, ?_, hpid⟩
            omega
        · rintro ⟨-, j, hj, hp, hpid⟩
          have h1 : ¬ (decimalValue str.data : Int) < 1 := by omega
          simp only [h1, if_false, firstSlot_isSome_iff, List.any_eq_true, decide_eq_true_eq]
          exact ⟨j, hj, hpid⟩
      · have hres : (bg_fg_errorhandling jobs (some str) bg).1 = none := by
          simp [bg_fg_errorhandling, hhead, hnum]
        rw [hres]
        simp [resolvable, hd, hnum]

/-- C8, as stated, fails: with job 1 (pid 100) as the only job, the selector
`%4294967297` is `%` followed by a decimal numeral that is the job id of no
entry, yet `atoi` turns it into 1, job 1 is resolved, no error is printed and
SIGCONT is sent to its process group. -/
theorem selector_beyond_int_resolves_job :
    resolvable bgJobShell.jobs (some "%4294967297") = false ∧
      (bg_fg_errorhandling bgJobShell.jobs (some "%4294967297") true).1 = some 0 ∧
      do_bgfg bgJobShell ["bg", "%4294967297"] WaitStatus.other =
        Except.ok (bgJobShell,
          [Event.kill (-100) Sig.SIGCONT, Event.print "[1] (100) sleep 9 &\n"]) := by
  decide

/-- C8, amended: for every table whose slots have `pid == 0` exactly when
`jid == 0`, and every selector argument of `fg`/`bg` (including a missing
one) whose digits, if they form a numeral, have a value below `2^31`:
`do_bgfg` resolves a job exactly when the selector is `%` followed by a
decimal numeral equal to the job id of an entry in use, or a decimal numeral
(not starting with `%`) equal to the pid of an entry in use; in every other
case it returns having printed one non-empty error message, sent no signal,
and left the table and the next-job-id counter unchanged. -/
theorem do_bgfg_resolution (s : Shell) (argv : List String) (status : WaitStatus)
    (hcmd : argv.head? = some "fg" ∨ argv.head? = some "bg")
    (hslots : ∀ j ∈ s.jobs, (j.pid = 0 ↔ j.jid = 0))
    (hrange : ∀ str, argv[1]? = some str → isnumstr (selectorDigits str) = true →
      (decimalValue (selectorDigits str) : Int) < 2 ^ 31) :
    ((bg_fg_errorhandling s.jobs argv[1]? (decide (argv.head? ≠ some "fg"))).1.isSome
        = resolvable s.jobs argv[1]?) ∧
      (resolvable s.jobs argv[1]? = false →
        ∃ msg, msg ≠ "" ∧ do_bgfg s argv status = Except.ok (s, [Event.print msg])) := by
  have hiff := bg_fg_errorhandling_isSome s.jobs argv[1]? (decide (argv.head? ≠ some "fg"))
    hslots hrange
  refine ⟨hiff, ?_⟩
  intro hno
  rw [hno] at hiff
  have hnone : (bg_fg_errorhandling s.jobs argv[1]? (decide (argv.head? ≠ some "fg"))).1
      = none := by
    cases h : (bg_fg_errorhandling s.jobs argv[1]? (decide (argv.head? ≠ some "fg"))).1 with
    | none => rfl
    | some i => rw [h] at hiff; cases hiff
  obtain ⟨msg, hmsg, hres⟩ := bg_fg_errorhandling_none hnone
  refine ⟨msg, hmsg, ?_⟩
  have hhead : ¬ (argv.head? ≠ some "fg" ∧ argv.head? ≠ some "bg") := by
    rcases hcmd with h | h <;> simp [h]
  simp only [do_bgfg, hhead, if_false, hres]

/-- C8, amended, at the table with job 1 (pid 100) and the command `fg %99`. -/
theorem do_bgfg_resolution_witness :
    resolvable bgJobShell.jobs (some "%99") = false ∧
      do_bgfg bgJobShell ["fg", "%99"] WaitStatus.other
        = Except.ok (bgJobShell, [Event.print "%99: No such job\n"]) ∧
      ∃ msg, msg ≠ "" ∧
        do_bgfg bgJobShell ["fg", "%99"] WaitStatus.other
          = Except.ok (bgJobShell, [Event.print msg]) :=
  ⟨by decide, by decide,
    (do_bgfg_resolution bgJobShell ["fg", "%99"] WaitStatus.other (by decide) (by decide)
      (by
        intro str hstr _
        simp only [List.getElem?_cons_succ, List.getElem?_cons_zero, Option.some.injEq] at hstr
        subst hstr
        decide)).2 (by decide)⟩

/-! ## `parseline` and the background flag -/

theorem strchr_eq_some {c : Char} {l front back : List Char}
    (h : strchr c l = some (front, back)) : l = front ++ c :: back := by
  induction l generalizing front with
  | nil => simp [strchr] at h
  | cons x xs ih =>
    by_cases hx : x = c
    · simp only [strchr, hx, if_true, Option.some.injEq, Prod.mk.injEq] at h
      obtain ⟨rfl, rfl⟩ := h
      simp [hx]
    · simp only [strchr, hx, if_false] at h
      cases hrec : strchr c xs with
      | none => simp [hrec] at h
      | some r =>
        obtain ⟨f, b⟩ := r
        simp only [hrec, Option.some.injEq, Prod.mk.injEq] at h
        obtain ⟨rfl, rfl⟩ := h
        simp [ih hrec]

theorem strchr_of_mem {c : Char} {l : List Char} (h : c ∈ l) :
    ∃ front back, strchr c l = some (front, back) := by
  induction l with
  | nil => simp at h
  | cons x xs ih =>
    by_cases hx : x = c
    · exact ⟨[], xs, by simp [strchr, hx]⟩
    · have hmem : c ∈ xs := by
        rcases List.mem_cons.1 h with h | h
        · exact absurd h.symm hx
        · exact h
      obtain ⟨f, b, hfb⟩ := ih hmem
      exact ⟨x :: f, b, by simp [strchr, hx, hfb]⟩

theorem strchr_append {c : Char} {l front back : List Char} (r : List Char)
    (h : strchr c l = some (front, back)) : strchr c (l ++ r) = some (front, back ++ r) := by
  induction l generalizing front with
  | nil => simp [strchr] at h
  | cons x xs ih =>
    by_cases hx : x = c
    · simp only [strchr, hx, if_true, Option.some.injEq, Prod.mk.injEq] at h
      obtain ⟨rfl, rfl⟩ := h
      simp [strchr, hx]
    · simp only [strchr, hx, if_false] at h
      cases hrec : strchr c xs with
      | none => simp [hrec] at h
      | some p =>
        obtain ⟨f, b⟩ := p
        simp only [hrec, Option.some.injEq, Prod.mk.injEq] at h
        obtain ⟨rfl, rfl⟩ := h
        simp [strchr, hx, ih hrec]

theorem skipSpaces_length_le (l : List Char) : (skipSpaces l).length ≤ l.length := by
  induction l with
  | nil => simp [skipSpaces]
  | cons x xs ih =>
    simp only [skipSpaces]
    split
    · simp only [List.length_cons]
      omega
    · simp

theorem findDelim_length {buf arg rest : List Char} (h : findDelim buf = some (arg, rest)) :
    rest.length < buf.length := by
  cases buf with
  | nil => simp [findDelim] at h
  | cons c l =>
    simp only [findDelim] at h
    split at h
    · have := congrArg List.length (strchr_eq_some h)
      simp only [List.length_append, List.length_cons] at this ⊢
      omega
    · have := congrArg List.length (strchr_eq_some h)
      simp only [List.length_append, List.length_cons] at this ⊢
      omega

/-- Fuel beyond the length of the buffer does not change the arguments found. -/
theorem parseArgs_fuel (fuel : Nat) :
    ∀ (fuel2 : Nat) (buf : List Char), buf.length ≤ fuel → buf.length ≤ fuel2 →
      parseArgs fuel buf = parseArgs fuel2 buf := by
  induction fuel with
  | zero =>
    intro fuel2 buf h _
    have hb : buf = [] := List.length_eq_zero.1 (by omega)
    subst hb
    cases fuel2 <;> simp [parseArgs, findDelim]
  | succ n ih =>
    intro fuel2 buf h h2
    cases fuel2 with
    | zero =>
      have hb : buf = [] := List.length_eq_zero.1 (by omega)
      subst hb
      simp [parseArgs, findDelim]
    | succ m =>
      simp only [parseArgs]
      cases hd : findDelim buf with
      | none => rfl
      | some r =>
        obtain ⟨arg, rest⟩ := r
        simp only
        have h1 := findDelim_length hd
        have h3 := skipSpaces_length_le rest
        rw [ih m (skipSpaces rest) (by omega) (by omega)]

theorem parseArgs_unfold (buf : List Char) :
    parseArgs buf.length buf =
      match findDelim buf with
      | some (arg, rest) => arg :: parseArgs (skipSpaces rest).length (skipSpaces rest)
      | none => [] := by
  cases buf with
  | nil => simp [parseArgs, findDelim]
  | cons c l =>
    simp only [List.length_cons, parseArgs]
    cases hd : findDelim (c :: l) with
    | none => rfl
    | some r =>
      obtain ⟨arg, rest⟩ := r
      simp only
      have h1 := findDelim_length hd
      have h3 := skipSpaces_length_le rest
      simp only [List.length_cons] at h1
      rw [parseArgs_fuel l.length (skipSpaces rest).length (skipSpaces rest) (by omega)
        (le_refl _)]

theorem getLast?_append_cons_cons (a : List Char) (x b : Char) (bs : List Char) :
    (a ++ x :: b :: bs).getLast? = (b :: bs).getLast? := by
  rw [List.getLast?_append, List.getLast?_cons_cons,
    List.getLast?_eq_getLast (b :: bs) (List.cons_ne_nil _ _)]
  rfl

theorem skipSpaces_replicate (n : Nat) : skipSpaces (List.replicate n ' ') = [] := by
  induction n with
  | zero => rfl
  | succ m ih => simp [List.replicate_succ, skipSpaces, ih]

/-- Arguments found in a quote-free text that ends in a space do not depend on what
follows the text. -/
theorem parseArgs_append (n : Nat) :
    ∀ (pre rest : List Char), pre.length ≤ n → quoteChar ∉ pre →
      (pre = [] ∨ pre.getLast? = some ' ') →
      parseArgs (skipSpaces (pre ++ rest)).length (skipSpaces (pre ++ rest)) =
        parseArgs (skipSpaces pre).length (skipSpaces pre) ++
          parseArgs (skipSpaces rest).length (skipSpaces rest) := by
  induction n with
  | zero =>
    intro pre rest hlen _ _
    have hp : pre = [] := List.length_eq_zero.1 (by omega)
    subst hp
    simp [skipSpaces, parseArgs]
  | succ m ih =>
    intro pre rest hlen hq hend
    cases pre with
    | nil => simp [skipSpaces, parseArgs]
    | cons c pre1 =>
      have hq1 : quoteChar ∉ pre1 := fun h => hq (List.mem_cons_of_mem _ h)
      have hlast : (c :: pre1).getLast? = some ' ' := by
        rcases hend with h | h
        · cases h
        · exact h
      by_cases hc : c = ' '
      · have hend1 : pre1 = [] ∨ pre1.getLast? = some ' ' := by
          cases pre1 with
          | nil => exact Or.inl rfl
          | cons b bs =>
            rw [List.getLast?_cons_cons] at hlast
            exact Or.inr hlast
        have := ih pre1 rest (by simpa using hlen) hq1 hend1
        simpa [skipSpaces, hc] using this
      · have hcq : ¬ c = quoteChar := fun h => hq (by rw [h]; exact List.mem_cons_self _ _)
        have hmem : ' ' ∈ c :: pre1 := List.mem_of_mem_getLast? (by rw [hlast]; rfl)
        obtain ⟨tok, back, hs⟩ := strchr_of_mem hmem
        have heq := strchr_eq_some hs
        have hs2 : strchr ' ' (c :: (pre1 ++ rest)) = some (tok, back ++ rest) := by
          have := strchr_append rest hs
          simpa using this
        have hblen : back.length ≤ m := by
          have := congrArg List.length heq
          simp only [List.length_cons, List.length_append] at this hlen
          omega
        have hbq : quoteChar ∉ back := by
          intro h
          apply hq
          rw [heq]
          exact List.mem_append_right _ (List.mem_cons_of_mem _ h)
        have hbend : back = [] ∨ back.getLast? = some ' ' := by
          cases back with
          | nil => exact Or.inl rfl
          | cons b bs =>
            rw [heq, getLast?_append_cons_cons] at hlast
            exact Or.inr hlast
        have hih := ih back rest hblen hbq hbend
        have h1 : skipSpaces (c :: pre1 ++ rest) = c :: (pre1 ++ rest) := by
          simp [skipSpaces, hc]
        have h2 : skipSpaces (c :: pre1) = c :: pre1 := by simp [skipSpaces, hc]
        rw [h1, h2, parseArgs_unfold (c :: (pre1 ++ rest)), parseArgs_unfold (c :: pre1)]
        simp only [findDelim, hcq, if_false, hs, hs2, hih, List.cons_append]

/-- C10, as stated, fails: `a&` followed by a newline is newline-terminated,
shorter than `MAXLINE`, has no single quote and ends in `&` once the newline
is trimmed, yet `parseline` returns false, with `a&` as the only argument. -/
theorem parseline_glued_ampersand_is_foreground :
    "a&\n".data.getLast? = some newlineChar ∧ "a&\n".data.length < MAXLINE ∧
      quoteChar ∉ "a&\n".data ∧ trimmedLast "a&\n" = some '&' ∧
      parseline "a&\n" = Except.ok (["a&"], false) := by
  decide

/-- C10, amended: for every newline-terminated command line shorter than
`MAXLINE`, without single quotes and with fewer than `MAXARGS` arguments,
whose text before the trailing spaces and the newline ends in a `&` that
stands at the start of the line or right after a space, `parseline` returns
true (background requested), with the `&` removed from the arguments. -/
theorem parseline_background (cmdline : String) (pre : List Char) (n : Nat)
    (hshape : cmdline.data = pre ++ '&' :: (List.replicate n ' ' ++ [newlineChar]))
    (hword : pre = [] ∨ pre.getLast? = some ' ')
    (hquote : quoteChar ∉ pre)
    (hlen : cmdline.data.length < MAXLINE)
    (hargs : (lineArgs cmdline).length < MAXARGS) :
    parseline cmdline = Except.ok (((lineArgs cmdline).dropLast).map String.mk, true) := by
  have hbuf : cmdline.data.dropLast ++ [' '] = pre ++ '&' :: List.replicate (n + 1) ' ' := by
    have h1 : cmdline.data = (pre ++ '&' :: List.replicate n ' ') ++ [newlineChar] := by
      rw [hshape]
      simp
    rw [h1, List.dropLast_concat]
    simp [List.replicate_succ']
  have hamp : skipSpaces ('&' :: List.replicate (n + 1) ' ') = '&' :: List.replicate (n + 1) ' ' := by
    simp [skipSpaces]
  have hlast : parseArgs (skipSpaces ('&' :: List.replicate (n + 1) ' ')).length
      (skipSpaces ('&' :: List.replicate (n + 1) ' ')) = [['&']] := by
    rw [hamp, parseArgs_unfold]
    have hq : ¬ '&' = quoteChar := by decide
    simp [findDelim, hq, strchr, List.replicate_succ, skipSpaces_replicate, parseArgs]
  have hargsEq : lineArgs cmdline =
      parseArgs (skipSpaces pre).length (skipSpaces pre) ++ [['&']] := by
    unfold lineArgs
    simp only [hbuf]
    rw [parseArgs_append pre.length pre _ (le_refl _) hquote hword, hlast]
  have hne : cmdline.data ≠ [] := by
    rw [hshape]
    simp
  have h1 : ¬ (cmdline.data = [] ∨ MAXLINE ≤ cmdline.data.length) := by
    rintro (h | h)
    · exact hne h
    · omega
  have h2 : ¬ MAXARGS ≤ (lineArgs cmdline).length := by omega
  have h3 : (lineArgs cmdline).getLast? = some ['&'] := by
    rw [hargsEq]
    simp
  unfold parseline
  simp only [h1, if_false, h2, h3]
  simp

/-- C10, amended, at the line `sleep 5 &`. -/
theorem parseline_background_witness :
    parseline "sleep 5 &\n" = Except.ok (["sleep", "5"], true) :=
  parseline_background "sleep 5 &\n" "sleep 5 ".data 0 (by decide) (by decide) (by decide)
    (by decide) (by decide)

/-! ## Properties kept by every run of the shell -/

/-- A property of the globals that `addjob`, `deletejob` and a change of the state
field of one entry keep is kept by `waitfg`. -/
theorem waitfg_preserves {P : Shell → Prop}
    (hdel : ∀ (s : Shell) (pid : Int), P s → P (deletejob s pid).1)
    (hmod : ∀ (s : Shell) (i : Nat) (x : Int), P s →
      P { s with jobs := List.modify (fun j => { j with state := x }) i s.jobs })
    {s s2 : Shell} {p : Int} {status : WaitStatus} {out : List Event}
    (hs : P s) (h : waitfg s p status = Except.ok (s2, out)) : P s2 := by
  cases status with
  | other =>
    simp only [waitfg, status_handling, ne_eq, not_true_eq_false, if_false,
      Except.ok.injEq, Prod.mk.injEq] at h
    rw [← h.1]
    exact hs
  | exited code =>
    simp only [waitfg, status_handling] at h
    split at h
    · simp only [Except.ok.injEq, Prod.mk.injEq] at h
      rw [← h.1]
      exact hdel s p hs
    · simp only [Except.ok.injEq, Prod.mk.injEq] at h
      rw [← h.1]
      exact hs
  | signaled sig =>
    simp only [waitfg, status_handling] at h
    split at h
    · simp only [Except.ok.injEq, Prod.mk.injEq] at h
      rw [← h.1]
      exact hdel s p hs
    · simp only [Except.ok.injEq, Prod.mk.injEq] at h
      rw [← h.1]
      exact hs
  | stopped sig =>
    cases hget : getjobpid s.jobs p with
    | none => simp [waitfg, status_handling, hget] at h
    | some i =>
      simp only [waitfg, status_handling, hget, ne_eq, not_true_eq_false, if_false,
        Except.ok.injEq, Prod.mk.injEq] at h
      rw [← h.1]
      exact hmod s i ST hs

theorem do_bgfg_preserves {P : Shell → Prop}
    (hdel : ∀ (s : Shell) (pid : Int), P s → P (deletejob s pid).1)
    (hmod : ∀ (s : Shell) (i : Nat) (x : Int), P s →
      P { s with jobs := List.modify (fun j => { j with state := x }) i s.jobs })
    {s s2 : Shell} {argv : List String} {status : WaitStatus} {out : List Event}
    (hs : P s) (h : do_bgfg s argv status = Except.ok (s2, out)) : P s2 := by
  unfold do_bgfg at h
  split at h
  · simp only [Except.ok.injEq, Prod.mk.injEq] at h
    rw [← h.1]
    exact hs
  · simp only at h
    split at h
    · simp only [Except.ok.injEq, Prod.mk.injEq] at h
      rw [← h.1]
      exact hs
    · split at h
      · cases h
      · split at h
        · simp only [Except.ok.injEq, Prod.mk.injEq] at h
          rw [← h.1]
          exact hmod s _ BG hs
        · split at h
          · cases h
          · rename_i s1 out1 hwait
            simp only [Except.ok.injEq, Prod.mk.injEq] at h
            rw [← h.1]
            exact waitfg_preserves hdel hmod (hmod s _ FG hs) hwait

theorem eval_preserves {P : Shell → Prop}
    (hadd : ∀ (s : Shell) (pid state : Int) (cmdline : String), P s →
      P (addjob s pid state cmdline).1)
    (hdel : ∀ (s : Shell) (pid : Int), P s → P (deletejob s pid).1)
    (hmod : ∀ (s : Shell) (i : Nat) (x : Int), P s →
      P { s with jobs := List.modify (fun j => { j with state := x }) i s.jobs })
    {s s2 : Shell} {cmdline : String} {forked : Int} {status : WaitStatus}
    {out : List Event} (hs : P s)
    (h : eval s cmdline forked status = Except.ok (s2, out)) : P s2 := by
  unfold eval at h
  split at h
  · cases h
  · split at h
    · simp only [Except.ok.injEq, Prod.mk.injEq] at h
      rw [← h.1]
      exact hs
    · split at h
      · cases h
      · rename_i r hb
        simp only [Except.ok.injEq] at h
        subst h
        unfold builtin_cmd at hb
        split at hb
        · cases hb
        · split at hb
          · simp only [Except.ok.injEq, Option.some.injEq, Prod.mk.injEq] at hb
            rw [← hb.1]
            exact hs
          · split at hb
            · split at hb
              · cases hb
              · rename_i r2 hdo
                simp only [Except.ok.injEq, Option.some.injEq] at hb
                subst hb
                exact do_bgfg_preserves hdel hmod hs hdo
            · cases hb
      · by_cases hneg : forked < 0
        · simp [hneg] at h
        · by_cases hz : forked = 0
          · simp [hz] at h
          · simp only [hneg, hz, if_false] at h
            split at h
            · split at h
              · cases h
              · rename_i s3 out3 hwait
                simp only [Except.ok.injEq, Prod.mk.injEq] at h
                rw [← h.1]
                exact waitfg_preserves hdel hmod (hadd s forked FG cmdline hs) hwait
            · simp only [Except.ok.injEq, Prod.mk.injEq] at h
              rw [← h.1]
              exact hadd s forked BG cmdline hs

theorem reapLoop_preserves {P : Shell → Prop}
    (hdel : ∀ (s : Shell) (pid : Int), P s → P (deletejob s pid).1)
    (reaped : List (Int × WaitStatus)) : ∀ s : Shell, P s → P (reapLoop s reaped) := by
  induction reaped with
  | nil => intro s hs; exact hs
  | cons c rest ih =>
    intro s hs
    obtain ⟨q, st⟩ := c
    by_cases hq : q > 0
    · simp only [reapLoop, hq, if_true]
      exact ih _ (hdel s q hs)
    · simp only [reapLoop, hq, if_false]
      exact hs

/-- A property of the globals that `addjob`, `deletejob` and a change of the state
field of one entry keep holds after every run of command lines and SIGCHLD
handler calls that returns, whatever the operating system answered. -/
theorem runSteps_preserves {P : Shell → Prop}
    (hadd : ∀ (s : Shell) (pid state : Int) (cmdline : String), P s →
      P (addjob s pid state cmdline).1)
    (hdel : ∀ (s : Shell) (pid : Int), P s → P (deletejob s pid).1)
    (hmod : ∀ (s : Shell) (i : Nat) (x : Int), P s →
      P { s with jobs := List.modify (fun j => { j with state := x }) i s.jobs })
    (steps : List Step) :
    ∀ s s2 : Shell, P s → runSteps s steps = Except.ok s2 → P s2 := by
  induction steps with
  | nil =>
    intro s s2 hs h
    simp only [runSteps, Except.ok.injEq] at h
    subst h
    exact hs
  | cons step rest ih =>
    intro s s2 hs h
    simp only [runSteps] at h
    cases happ : applyStep s step with
    | error e => simp [happ] at h
    | ok s1 =>
      simp only [happ] at h
      refine ih s1 s2 ?_ h
      cases step with
      | command cmdline forked status =>
        simp only [applyStep] at happ
        split at happ
        · rename_i s3 out heval
          simp only [Except.ok.injEq] at happ
          subst happ
          exact eval_preserves hadd hdel hmod hs heval
        · cases happ
      | sigchld reaped failed =>
        simp only [applyStep, sigchld_handler, Except.ok.injEq] at happ
        subst happ
        exact reapLoop_preserves hdel reaped s hs

/-! ## Every table the shell builds has `MAXJOBS` slots, cleared or in use as a whole -/

theorem slotsOk_init (verbose : Bool) : SlotsOk (initShell verbose) := by
  refine ⟨by simp [initShell, initjobs], ?_, by simp [initShell]⟩
  intro j hj
  simp only [initShell, initjobs] at hj
  rw [List.eq_of_mem_replicate hj]
  simp [clearjob]

theorem slotsOk_addjob (s : Shell) (pid state : Int) (cmdline : String) (h : SlotsOk s) :
    SlotsOk (addjob s pid state cmdline).1 := by
  by_cases hpid : pid < 1
  · simpa [addjob, hpid] using h
  · cases hslot : firstSlot (fun j => decide (j.pid = 0)) s.jobs with
    | none => simpa [addjob, hpid, hslot] using h
    | some i =>
      obtain ⟨hl, hs, hn⟩ := h
      simp only [addjob, hpid, hslot, if_false]
      refine ⟨by simpa using hl, ?_, ?_⟩
      · intro j hj
        rcases List.mem_or_eq_of_mem_set hj with hj | rfl
        · exact hs j hj
        · simp only
          constructor <;> intro h0 <;> omega
      · simp only
        split <;> omega

theorem slotsOk_deletejob (s : Shell) (pid : Int) (h : SlotsOk s) :
    SlotsOk (deletejob s pid).1 := by
  by_cases hpid : pid < 1
  · simpa [deletejob, hpid] using h
  · cases hslot : firstSlot (fun j => decide (j.pid = pid)) s.jobs with
    | none => simpa [deletejob, hpid, hslot] using h
    | some i =>
      obtain ⟨hl, hs, -⟩ := h
      simp only [deletejob, hpid, hslot, if_false]
      refine ⟨by simpa using hl, ?_, ?_⟩
      · intro j hj
        rcases List.mem_or_eq_of_mem_set hj with hj | rfl
        · exact hs j hj
        · simp [clearjob]
      · have := foldl_maxjid_ge_init (s.jobs.set i clearjob) 0
        simp only [maxjid]
        omega

theorem slotsOk_modify_state (s : Shell) (i : Nat) (x : Int) (h : SlotsOk s) :
    SlotsOk { s with jobs := List.modify (fun j => { j with state := x }) i s.jobs } := by
  refine ⟨by simpa using h.1, ?_, h.2.2⟩
  intro j hj
  obtain ⟨k, hk⟩ := List.mem_iff_getElem?.1 hj
  obtain ⟨j0, hj0, hp, hi, -⟩ := getElem?_modify_state hk
  have := h.2.1 j0 (List.getElem?_mem hj0)
  rw [hp, hi] at this
  exact this

/-- After every run of command lines and SIGCHLD handler calls from the
initialised shell, the table has `MAXJOBS` slots, each slot has `pid == 0`
exactly when it has `jid == 0`, and the next job id is positive. -/
theorem slotsOk_reachable (verbose : Bool) (steps : List Step) (s : Shell)
    (h : runSteps (initShell verbose) steps = Except.ok s) : SlotsOk s :=
  runSteps_preserves slotsOk_addjob slotsOk_deletejob slotsOk_modify_state steps _ s
    (slotsOk_init verbose) h

/-! ## The table while the shell waits for the foreground job -/

theorem countP_le_one_of_unique (q : job_t → Bool) (l : List job_t)
    (h : ∀ (a b : Nat) (ja jb : job_t), l[a]? = some ja → l[b]? = some jb →
      q ja = true → q jb = true → a = b) : l.countP q ≤ 1 := by
  induction l with
  | nil => simp
  | cons x xs ih =>
    by_cases hx : q x = true
    · rw [List.countP_cons_of_pos _ _ hx]
      have h0 : xs.countP q = 0 := by
        rw [List.countP_eq_zero]
        intro y hy hqy
        obtain ⟨k, hk⟩ := List.mem_iff_getElem?.1 hy
        have := h 0 (k + 1) x y (by simp) (by simpa using hk) hx hqy
        omega
      omega
    · rw [List.countP_cons_of_neg _ _ hx]
      apply ih
      intro a b ja jb ha hb hqa hqb
      have := h (a + 1) (b + 1) ja jb (by simpa using ha) (by simpa using hb) hqa hqb
      omega

theorem countFG_le_one_of_fgOnly {jobs : List job_t} {p : Int} (hok : TableOk jobs)
    (hfg : FgOnly jobs p) (hp : 1 ≤ p) : countFG jobs ≤ 1 := by
  apply countP_le_one_of_unique
  intro a b ja jb ha hb hqa hqb
  simp only [decide_eq_true_eq] at hqa hqb
  have hpa := hfg ja (List.getElem?_mem ha) hqa
  have hpb := hfg jb (List.getElem?_mem hb) hqb
  exact hok.2 a b ja jb ha hb (by omega) (hpa.trans hpb.symm)

/-- The table `eval` hands to `waitfg` for a foreground launch, while the new job
runs in state `FG`, has at most one entry in state `FG`. -/
theorem single_foreground_job_while_waiting {s : Shell} (forked : Int) (cmdline : String)
    (hok : TableOk s.jobs) (hno : NoFg s.jobs) (hpos : 0 < forked)
    (hfresh : getjobpid s.jobs forked = none) :
    countFG (addjob s forked FG cmdline).1.jobs ≤ 1 :=
  countFG_le_one_of_fgOnly
    (tableOk_addjob hok forked FG cmdline (getjobpid_eq_none hpos hfresh))
    (fgOnly_addjob hno forked FG cmdline) (by omega)

end Tsh
